import Mathlib

/-!
Verification of the siyuan-plugin-ai-graph data core against its
natural-language specification.

The TypeScript sources are shallowly embedded as executable Lean
definitions: strings are lists of characters, JavaScript `Map`/`Set`
objects are association lists / lists with JS insertion-order semantics,
asynchronous storage and LLM calls are modelled as explicit parameters
(storage state values, outcome oracles).  Regular-expression matching is
embedded by a small backtracking matcher covering exactly the regex
shapes the sources use (character classes, greedy bounded repetition,
literals, optional groups, two capture groups, end anchor), with
JavaScript `exec`-loop semantics (leftmost match, `lastIndex` advance,
stall guard).
-/

set_option maxRecDepth 10000

namespace AiGraph

/-- Text is a list of characters; positions are `Nat` indices, mirroring
JavaScript string indices. -/
abbrev Chars := List Char

/-- `text.substring(s, e)` for `s ≤ e` (the only way the sources call it). -/
def subStr (t : Chars) (s e : Nat) : Chars := (t.drop s).take (e - s)

/-! ## JavaScript collection semantics -/

/-- `Set.add`: append if absent (only membership is ever observed). -/
def jsSetAdd [DecidableEq α] (l : List α) (a : α) : List α :=
  if a ∈ l then l else l ++ [a]

/-- `Map.get`: value of the first (unique) binding of `k`. -/
def jsMapGet [DecidableEq κ] (m : List (κ × α)) (k : κ) : Option α :=
  (m.find? (fun p => p.1 = k)).map (·.2)

/-- `Map.has`. -/
def jsMapHas [DecidableEq κ] (m : List (κ × α)) (k : κ) : Bool :=
  m.any (fun p => p.1 = k)

/-- `Map.set`: update in place if the key exists (keeping its insertion
position), otherwise append — JavaScript `Map` insertion-order semantics. -/
def jsMapSet [DecidableEq κ] (m : List (κ × α)) (k : κ) (v : α) : List (κ × α) :=
  if jsMapHas m k then m.map (fun p => if p.1 = k then (k, v) else p)
  else m ++ [(k, v)]

/-- `Array.from(map.values())`. -/
def jsMapValues (m : List (κ × α)) : List α := m.map (·.2)

/-! ## Character classes and the regex mini-engine

Each regular expression literal of the sources is translated to a list of
`RItem`s.  All quantifiers in the sources apply to character classes and
all optional groups are a literal followed by a class repetition, which
is exactly what the `RItem` grammar provides; backtracking is greedy,
first-success, as in the JavaScript engine. -/

/-- A character class: a union of inclusive ranges, possibly negated. -/
structure CClass where
  ranges : List (Char × Char)
  negated : Bool

/-- Class membership test. -/
def CClass.mem (c : CClass) (ch : Char) : Bool :=
  let inr := c.ranges.any (fun r => decide (r.1.val ≤ ch.val) && decide (ch.val ≤ r.2.val))
  if c.negated then !inr else inr

/-- Build a class from single characters. -/
def ccOf (l : List Char) (neg : Bool) : CClass := ⟨l.map (fun c => (c, c)), neg⟩

/-- `[一-龥]` — the CJK range used throughout the sources. -/
def ccCJK : CClass := ⟨[('一', '龥')], false⟩

/-- `\d`. -/
def ccDigit : CClass := ⟨[('0', '9')], false⟩

/-- `[a-zA-Z]`. -/
def ccAlpha : CClass := ⟨[('a', 'z'), ('A', 'Z')], false⟩

/-- `\\s` as ranges: the JavaScript whitespace character set. -/
def ccSpaceRanges : List (Char × Char) :=
  [(Char.ofNat 0x9, Char.ofNat 0xd), (' ', ' '),
   (Char.ofNat 0xa0, Char.ofNat 0xa0), (Char.ofNat 0x1680, Char.ofNat 0x1680),
   (Char.ofNat 0x2000, Char.ofNat 0x200a),
   (Char.ofNat 0x2028, Char.ofNat 0x2029), (Char.ofNat 0x202f, Char.ofNat 0x202f),
   (Char.ofNat 0x205f, Char.ofNat 0x205f), (Char.ofNat 0x3000, Char.ofNat 0x3000),
   (Char.ofNat 0xfeff, Char.ofNat 0xfeff)]

/-- One item of a regex sequence. -/
inductive RItem where
  /-- a single character class occurrence -/
  | cls (c : CClass)
  /-- greedy repetition `c{mn,mx}` of a class (`mx = none` means unbounded) -/
  | rep (c : CClass) (mn : Nat) (mx : Option Nat)
  /-- a capturing group `(c{mn,mx})` over a class repetition -/
  | grpRep (g : Nat) (c : CClass) (mn : Nat) (mx : Option Nat)
  /-- a literal string -/
  | lit (s : Chars)
  /-- greedy optional group `(pre c{mn,mx})?` (capture value unused by the sources) -/
  | optPart (pre : Chars) (c : CClass) (mn : Nat) (mx : Option Nat)
  /-- the `$` anchor (used only for the anchored full-string tests) -/
  | eos

/-- Does literal `s` occur in `t` at position `i`? -/
def litAt (t : Chars) (i : Nat) (s : Chars) : Bool :=
  (t.drop i).take s.length = s

/-- Length of the run of class-`c` characters of `t` starting at `i`. -/
def runLen (t : Chars) (i : Nat) (c : CClass) : Nat :=
  go (t.drop i)
where
  go : Chars → Nat
    | [] => 0
    | ch :: r => if c.mem ch then go r + 1 else 0

/-- Run length capped by an optional maximum. -/
def runLenCap (t : Chars) (i : Nat) (c : CClass) (mx : Option Nat) : Nat :=
  match mx with
  | none => runLen t i c
  | some m => min m (runLen t i c)

/-- Candidate repetition counts, greedy first: `[m, m-1, …, mn]`. -/
def countsDown (m mn : Nat) : List Nat :=
  if m < mn then [] else (List.range (m - mn + 1)).map (fun i => m - i)

/-- Backtracking matcher: match the item sequence against `t` starting at
`pos`; on success return the end position and the capture spans
`(group, start, end)`.  Greedy first-success order mirrors the JavaScript
engine on the regex shapes the sources use. -/
def matchSeq : List RItem → Chars → Nat → Option (Nat × List (Nat × Nat × Nat))
  | [], _, pos => some (pos, [])
  | .cls c :: rest, t, pos =>
    match t.get? pos with
    | some ch => if c.mem ch then matchSeq rest t (pos + 1) else none
    | none => none
  | .lit s :: rest, t, pos =>
    if litAt t pos s then matchSeq rest t (pos + s.length) else none
  | .rep c mn mx :: rest, t, pos =>
    (countsDown (runLenCap t pos c mx) mn).findSome?
      (fun k => matchSeq rest t (pos + k))
  | .grpRep g c mn mx :: rest, t, pos =>
    (countsDown (runLenCap t pos c mx) mn).findSome?
      (fun k => (matchSeq rest t (pos + k)).map
        (fun r => (r.1, (g, pos, pos + k) :: r.2)))
  | .optPart pre c mn mx :: rest, t, pos =>
    let attempt :=
      if litAt t pos pre then
        (countsDown (runLenCap t (pos + pre.length) c mx) mn).findSome?
          (fun k => matchSeq rest t (pos + pre.length + k))
      else none
    attempt <|> matchSeq rest t pos
  | .eos :: rest, t, pos =>
    if pos = t.length then matchSeq rest t pos else none

/-- One `regex.exec` step from `lastIndex = i`: leftmost match at or after
`i` (candidates `i, i+1, …, t.length`). -/
def execFind (re : List RItem) (t : Chars) (i : Nat) :
    Option (Nat × Nat × List (Nat × Nat × Nat)) :=
  (List.range' i (t.length + 1 - i)).findSome?
    (fun j => (matchSeq re t j).map (fun r => (j, r.1, r.2)))

/-- A regex match: whole-match span and captures. -/
structure RMatch where
  start : Nat
  stop : Nat
  caps : List (Nat × Nat × Nat)
deriving DecidableEq, Repr

/-- The `while ((match = regex.exec(text)) !== null)` loop, including the
stall guard `if (match.index === regex.lastIndex) regex.lastIndex++`.
`fuel` only bounds the iteration count; `t.length + 2` always suffices
because `lastIndex` strictly increases. -/
def execAllAux (re : List RItem) (t : Chars) : Nat → Nat → List RMatch
  | _, 0 => []
  | i, fuel + 1 =>
    match execFind re t i with
    | none => []
    | some (s, e, caps) =>
      let next := if s = e then e + 1 else e
      ⟨s, e, caps⟩ :: execAllAux re t next fuel

/-- All matches of a global regex over `t`. -/
def execAll (re : List RItem) (t : Chars) : List RMatch :=
  execAllAux re t 0 (t.length + 2)

/-- Anchored full-string test (`^…$`): the item sequence followed by `$`
matches at position 0. -/
def fullMatch (re : List RItem) (t : Chars) : Bool :=
  (matchSeq (re ++ [.eos]) t 0).isSome

/-- The capture with group index `g`, as a substring of `t`. -/
def capStr (t : Chars) (m : RMatch) (g : Nat) : Chars :=
  match m.caps.find? (fun c => c.1 = g) with
  | some (_, s, e) => subStr t s e
  | none => []

/-- The strings of `text.match(/re/g) || []`. -/
def matchStrs (re : List RItem) (t : Chars) : List Chars :=
  (execAll re t).map (fun m => subStr t m.start m.stop)

/-- `text.indexOf(w, s)`: index of the first occurrence of `w` at or
after `s` (JavaScript clamps the start into `[0, length]`), `none` for
`-1`. -/
def indexOfFrom (t w : Chars) (s : Nat) : Option Nat :=
  (List.range' (min s t.length) (t.length + 1 - min s t.length)).find?
    (fun i => litAt t i w)

/-! ## Tokenizer (`src/data/processor/Tokenizer.ts`) -/

namespace Tokenizer

/-- A token (`types.ts`): `stop` embeds the source field `end` (a Lean
keyword). -/
structure Token where
  text : Chars
  start : Nat
  stop : Nat
  type : Chars
deriving DecidableEq, Repr

/-- `/^\d+(\.\d+)?$/` without the anchors. -/
def numberRe : List RItem := [.rep ccDigit 1 none, .optPart ['.'] ccDigit 1 none]

/-- `[^\w\s一-龥]` (the punctuation test of `determineTokenType`). -/
def ccPunct : CClass :=
  ⟨[('0', '9'), ('A', 'Z'), ('a', 'z'), ('_', '_')] ++ ccSpaceRanges ++
    [('一', '龥')], true⟩

/-- `Tokenizer.determineTokenType`. -/
def determineTokenType (dict : List (Chars × Chars)) (w : Chars) : Chars :=
  match jsMapGet dict w with
  | some ty => ty
  | none =>
    if fullMatch numberRe w then "number".toList
    else if fullMatch [.rep ccAlpha 1 none] w then "english".toList
    else if fullMatch [.rep ccCJK 1 none] w then "chinese".toList
    else if fullMatch [.cls ccPunct, .rep ccPunct 0 none] w then "punctuation".toList
    else "mixed".toList

/-- The CJK-character pass of `fallbackTokenize`: locate each match of
`/[一-龥]/g` with a forward `indexOf` cursor; the cursor advances only
when a token is pushed, exactly as in the source. -/
def chineseScan (stopw : List Chars) (t : Chars) (ws : List Chars) : List Token :=
  (ws.foldl (fun acc w =>
    match indexOfFrom t w acc.2 with
    | some s =>
      if stopw.contains w then acc
      else (acc.1 ++ [⟨w, s, s + 1, "unknown".toList⟩], s + 1)
    | none => acc) ([], 0)).1

/-- The `/[a-zA-Z]+/g` pass of `fallbackTokenize` (stopword test on the
lower-cased word). -/
def englishScan (stopw : List Chars) (dict : List (Chars × Chars))
    (t : Chars) (ws : List Chars) : List Token :=
  (ws.foldl (fun acc w =>
    match indexOfFrom t w acc.2 with
    | some s =>
      if stopw.contains (w.map Char.toLower) then acc
      else (acc.1 ++ [⟨w, s, s + w.length, determineTokenType dict w⟩],
            s + w.length)
    | none => acc) ([], 0)).1

/-- The `/\d+(\.\d+)?/g` pass of `fallbackTokenize` (no stopword test). -/
def numberScan (t : Chars) (ws : List Chars) : List Token :=
  (ws.foldl (fun acc w =>
    match indexOfFrom t w acc.2 with
    | some s =>
      (acc.1 ++ [⟨w, s, s + w.length, "number".toList⟩], s + w.length)
    | none => acc) ([], 0)).1

/-- Stable insertion by `start`: the new element goes before the first
element whose `start` is not smaller. -/
def insertByStart (tk : Token) : List Token → List Token
  | [] => [tk]
  | x :: r => if x.start < tk.start then x :: insertByStart tk r else tk :: x :: r

/-- Stable sort by `start` — `tokens.sort((a, b) => a.start - b.start)`
(`Array.prototype.sort` is stable, and a stable sort by `start` is
uniquely determined, so insertion sort is an exact model). -/
def sortByStart (l : List Token) : List Token :=
  l.foldr insertByStart []

/-- `Tokenizer.fallbackTokenize`: three regex scans merged and sorted by
`start`. -/
def fallbackTokenize (stopw : List Chars) (dict : List (Chars × Chars))
    (t : Chars) : List Token :=
  let chs := matchStrs [.cls ccCJK] t
  let ews := matchStrs [.rep ccAlpha 1 none] t
  let nums := matchStrs numberRe t
  let tokens := chineseScan stopw t chs ++ englishScan stopw dict t ews ++
    numberScan t nums
  sortByStart tokens

/-- The segmentation-engine branch of `Tokenizer.tokenize`: each segment
word is located by a forward `indexOf` from the previous cursor; the
token type is `customDict.get(word) || 'unknown'`; stopwords are dropped
but still advance the cursor. -/
def jiebaScan (stopw : List Chars) (dict : List (Chars × Chars))
    (t : Chars) (ws : List Chars) : List Token :=
  (ws.foldl (fun acc w =>
    match indexOfFrom t w acc.2 with
    | some s =>
      let tok : Token := ⟨w, s, s + w.length,
        match jsMapGet dict w with
        | some ty => if ty.isEmpty then "unknown".toList else ty
        | none => "unknown".toList⟩
      ((if stopw.contains w then acc.1 else acc.1 ++ [tok]), s + w.length)
    | none => acc) ([], 0)).1

/-- `Tokenizer.tokenize`.  The segmentation engine (`nodejieba`) is
modelled by its availability flag and its `cut` function; empty input
returns `[]`; with CJK content and an available engine the segmentation
path runs, otherwise `fallbackTokenize`. -/
def tokenize (cut : Chars → List Chars) (avail : Bool)
    (stopw : List Chars) (dict : List (Chars × Chars)) (t : Chars) :
    List Token :=
  if t.isEmpty then []
  else if t.any ccCJK.mem && avail then jiebaScan stopw dict t (cut t)
  else fallbackTokenize stopw dict t

end Tokenizer

/-! ### Round-trip lemmas for the tokenizer -/

theorem litAt_subStr {t : Chars} {i : Nat} {w : Chars}
    (h : litAt t i w = true) : subStr t i (i + w.length) = w := by
  have h' : (t.drop i).take w.length = w := by
    simpa [litAt] using h
  simpa [subStr, Nat.add_sub_cancel_left] using h'

theorem indexOfFrom_subStr {t w : Chars} {s i : Nat}
    (h : indexOfFrom t w s = some i) : subStr t i (i + w.length) = w := by
  have := List.find?_some h
  exact litAt_subStr (by simpa using this)

/-- A token produced by any of the located scans satisfies the round-trip
property. -/
theorem jiebaScan_round_trip (stopw : List Chars) (dict : List (Chars × Chars))
    (t : Chars) (ws : List Chars) :
    ∀ tk ∈ Tokenizer.jiebaScan stopw dict t ws,
      subStr t tk.start tk.stop = tk.text := by
  suffices h : ∀ (acc : List Tokenizer.Token × Nat),
      (∀ tk ∈ acc.1, subStr t tk.start tk.stop = tk.text) →
      ∀ tk ∈ (ws.foldl (fun acc w =>
        match indexOfFrom t w acc.2 with
        | some s =>
          let tok : Tokenizer.Token := ⟨w, s, s + w.length,
            match jsMapGet dict w with
            | some ty => if ty.isEmpty then "unknown".toList else ty
            | none => "unknown".toList⟩
          ((if stopw.contains w then acc.1 else acc.1 ++ [tok]), s + w.length)
        | none => acc) acc).1, subStr t tk.start tk.stop = tk.text by
    intro tk htk
    exact h ([], 0) (by simp) tk htk
  induction ws with
  | nil => intro acc hacc tk htk; exact hacc tk htk
  | cons w ws ih =>
    intro acc hacc tk htk
    simp only [List.foldl_cons] at htk
    rcases hfind : indexOfFrom t w acc.2 with _ | s
    · rw [hfind] at htk
      exact ih acc hacc tk htk
    · rw [hfind] at htk
      refine ih _ ?_ tk htk
      intro tk' htk'
      by_cases hstop : stopw.contains w
      · simp only [hstop, if_pos] at htk'
        exact hacc tk' htk'
      · simp only [hstop, if_neg, Bool.false_eq_true, not_false_iff,
          List.mem_append, List.mem_singleton] at htk'
        rcases htk' with h' | h'
        · exact hacc tk' h'
        · subst h'
          exact indexOfFrom_subStr hfind

theorem englishScan_round_trip (stopw : List Chars) (dict : List (Chars × Chars))
    (t : Chars) (ws : List Chars) :
    ∀ tk ∈ Tokenizer.englishScan stopw dict t ws,
      subStr t tk.start tk.stop = tk.text := by
  suffices h : ∀ (acc : List Tokenizer.Token × Nat),
      (∀ tk ∈ acc.1, subStr t tk.start tk.stop = tk.text) →
      ∀ tk ∈ (ws.foldl (fun acc w =>
        match indexOfFrom t w acc.2 with
        | some s =>
          if stopw.contains (w.map Char.toLower) then acc
          else (acc.1 ++ [⟨w, s, s + w.length,
              Tokenizer.determineTokenType dict w⟩], s + w.length)
        | none => acc) acc).1, subStr t tk.start tk.stop = tk.text by
    intro tk htk
    exact h ([], 0) (by simp) tk htk
  induction ws with
  | nil => intro acc hacc tk htk; exact hacc tk htk
  | cons w ws ih =>
    intro acc hacc tk htk
    simp only [List.foldl_cons] at htk
    rcases hfind : indexOfFrom t w acc.2 with _ | s
    · rw [hfind] at htk
      exact ih acc hacc tk htk
    · rw [hfind] at htk
      by_cases hstop : stopw.contains (w.map Char.toLower)
      · simp only [hstop, if_pos] at htk
        exact ih acc hacc tk htk
      · simp only [hstop, if_neg, Bool.false_eq_true, not_false_iff] at htk
        refine ih _ ?_ tk htk
        intro tk' htk'
        rcases List.mem_append.1 htk' with h' | h'
        · exact hacc tk' h'
        · rw [List.mem_singleton] at h'
          subst h'
          exact indexOfFrom_subStr hfind

theorem numberScan_round_trip (t : Chars) (ws : List Chars) :
    ∀ tk ∈ Tokenizer.numberScan t ws,
      subStr t tk.start tk.stop = tk.text := by
  suffices h : ∀ (acc : List Tokenizer.Token × Nat),
      (∀ tk ∈ acc.1, subStr t tk.start tk.stop = tk.text) →
      ∀ tk ∈ (ws.foldl (fun acc w =>
        match indexOfFrom t w acc.2 with
        | some s =>
          (acc.1 ++ [⟨w, s, s + w.length, "number".toList⟩], s + w.length)
        | none => acc) acc).1, subStr t tk.start tk.stop = tk.text by
    intro tk htk
    exact h ([], 0) (by simp) tk htk
  induction ws with
  | nil => intro acc hacc tk htk; exact hacc tk htk
  | cons w ws ih =>
    intro acc hacc tk htk
    simp only [List.foldl_cons] at htk
    rcases hfind : indexOfFrom t w acc.2 with _ | s
    · rw [hfind] at htk
      exact ih acc hacc tk htk
    · rw [hfind] at htk
      refine ih _ ?_ tk htk
      intro tk' htk'
      rcases List.mem_append.1 htk' with h' | h'
      · exact hacc tk' h'
      · rw [List.mem_singleton] at h'
        subst h'
        exact indexOfFrom_subStr hfind

/-- A single-character-class regex only matches single characters. -/
theorem matchSeq_cls_stop {c : CClass} {t : Chars} {j e : Nat}
    {caps : List (Nat × Nat × Nat)}
    (h : matchSeq [.cls c] t j = some (e, caps)) : e = j + 1 := by
  rw [matchSeq] at h
  split at h
  · split at h
    · simp only [matchSeq, Option.some.injEq, Prod.mk.injEq] at h
      exact h.1.symm
    · cases h
  · cases h

/-- Inversion for `execFind`: a found match really is a `matchSeq` match
at its start position. -/
theorem execFind_matchSeq {re : List RItem} {t : Chars} {i s e : Nat}
    {caps : List (Nat × Nat × Nat)}
    (h : execFind re t i = some (s, e, caps)) :
    matchSeq re t s = some (e, caps) := by
  obtain ⟨j, _, hmap⟩ := List.exists_of_findSome?_eq_some h
  rcases hms : matchSeq re t j with _ | r
  · rw [hms] at hmap; cases hmap
  · rw [hms] at hmap
    simp only [Option.map_some', Option.some.injEq, Prod.ext_iff] at hmap
    rw [← hmap.1, hms, ← hmap.2.1, ← hmap.2.2]

/-- Every match reported by the `exec` loop is a `matchSeq` match at its
reported start position. -/
theorem execAll_matchSeq (re : List RItem) (t : Chars) :
    ∀ m ∈ execAll re t, matchSeq re t m.start = some (m.stop, m.caps) := by
  suffices h : ∀ fuel i, ∀ m ∈ execAllAux re t i fuel,
      matchSeq re t m.start = some (m.stop, m.caps) by
    intro m hm; exact h _ _ m hm
  intro fuel
  induction fuel with
  | zero => intro i m hm; simp [execAllAux] at hm
  | succ fuel ih =>
    intro i m hm
    rw [execAllAux] at hm
    rcases hfind : execFind re t i with _ | ⟨s, e, caps⟩
    · rw [hfind] at hm; simp at hm
    · rw [hfind] at hm
      rcases List.mem_cons.1 hm with h' | h'
      · subst h'; exact execFind_matchSeq hfind
      · exact ih _ m h'

/-- Matches of a single-character-class regex span exactly one character. -/
theorem execAll_cls_stop (c : CClass) (t : Chars) :
    ∀ m ∈ execAll [.cls c] t, m.stop = m.start + 1 := by
  suffices h : ∀ fuel i, ∀ m ∈ execAllAux [.cls c] t i fuel,
      m.stop = m.start + 1 by
    intro m hm; exact h _ _ m hm
  intro fuel
  induction fuel with
  | zero => intro i m hm; simp [execAllAux] at hm
  | succ fuel ih =>
    intro i m hm
    rw [execAllAux] at hm
    rcases hfind : execFind [.cls c] t i with _ | ⟨s, e, caps⟩
    · rw [hfind] at hm; simp at hm
    · rw [hfind] at hm
      rcases List.mem_cons.1 hm with h' | h'
      · subst h'
        exact matchSeq_cls_stop (execFind_matchSeq hfind)
      · exact ih _ m h'

/-- Each match string of a regex is recoverable from its span (immediate
from the definition of `matchStrs`). -/
theorem matchStrs_spec (re : List RItem) (t : Chars) :
    ∀ w ∈ matchStrs re t, ∃ m ∈ execAll re t,
      w = subStr t m.start m.stop := by
  intro w hw
  obtain ⟨m, hm, rfl⟩ := List.mem_map.1 hw
  exact ⟨m, hm, rfl⟩

/-- The CJK pass satisfies the round-trip property: each located word of
the `/[一-龥]/g` match list is a single character, so the `start + 1`
end offset written by the source coincides with `start + word.length`. -/
theorem chineseScan_round_trip (stopw : List Chars) (t : Chars)
    (ws : List Chars) (hws : ∀ w ∈ ws, w.length = 1) :
    ∀ tk ∈ Tokenizer.chineseScan stopw t ws,
      subStr t tk.start tk.stop = tk.text := by
  suffices h : ∀ (acc : List Tokenizer.Token × Nat),
      (∀ tk ∈ acc.1, subStr t tk.start tk.stop = tk.text) →
      ∀ tk ∈ (ws.foldl (fun acc w =>
        match indexOfFrom t w acc.2 with
        | some s =>
          if stopw.contains w then acc
          else (acc.1 ++ [⟨w, s, s + 1, "unknown".toList⟩], s + 1)
        | none => acc) acc).1, subStr t tk.start tk.stop = tk.text by
    intro tk htk
    exact h ([], 0) (by simp) tk htk
  induction ws with
  | nil => intro acc hacc tk htk; exact hacc tk htk
  | cons w ws ih =>
    intro acc hacc tk htk
    simp only [List.foldl_cons] at htk
    have hw1 : w.length = 1 := hws w (by simp)
    have hws' : ∀ w ∈ ws, w.length = 1 := fun w hw => hws w (by simp [hw])
    rcases hfind : indexOfFrom t w acc.2 with _ | s
    · rw [hfind] at htk
      exact ih hws' acc hacc tk htk
    · rw [hfind] at htk
      by_cases hstop : stopw.contains w
      · simp only [hstop, if_pos] at htk
        exact ih hws' acc hacc tk htk
      · simp only [hstop, if_neg, Bool.false_eq_true, not_false_iff] at htk
        refine ih hws' _ ?_ tk htk
        intro tk' htk'
        rcases List.mem_append.1 htk' with h' | h'
        · exact hacc tk' h'
        · rw [List.mem_singleton] at h'
          subst h'
          have := indexOfFrom_subStr hfind
          rwa [hw1] at this


/-- Membership is preserved by the stable insertion. -/
theorem mem_insertByStart (tk x : Tokenizer.Token) (l : List Tokenizer.Token) :
    x ∈ Tokenizer.insertByStart tk l ↔ x = tk ∨ x ∈ l := by
  induction l with
  | nil => simp [Tokenizer.insertByStart]
  | cons y r ih =>
    rw [Tokenizer.insertByStart]
    by_cases h : y.start < tk.start
    · simp only [h, if_pos, List.mem_cons, ih]
      tauto
    · simp only [h, if_neg, Bool.false_eq_true, not_false_iff, List.mem_cons]

/-- Membership is preserved by the stable sort. -/
theorem mem_sortByStart (x : Tokenizer.Token) (l : List Tokenizer.Token) :
    x ∈ Tokenizer.sortByStart l ↔ x ∈ l := by
  rw [Tokenizer.sortByStart]
  induction l with
  | nil => simp
  | cons y r ih =>
    simp only [List.foldr_cons, mem_insertByStart, List.mem_cons, ih]

/-- Every CJK-class match string has length 1 (the class matches exactly
one in-bounds character). -/
theorem matchStrs_cls_length (c : CClass) (t : Chars) :
    ∀ w ∈ matchStrs [.cls c] t, w.length = 1 := by
  intro w hw
  obtain ⟨m, hm, rfl⟩ := List.mem_map.1 hw
  have hstop := execAll_cls_stop c t m hm
  have hms := execAll_matchSeq [.cls c] t m hm
  rw [hstop] at hms ⊢
  rw [matchSeq] at hms
  rcases hg : t.get? m.start with _ | ch
  · rw [hg] at hms; cases hms
  · have hlt : m.start < t.length := (List.get?_eq_some.1 hg).1
    simp only [subStr, Nat.add_sub_cancel_left, List.length_take,
      List.length_drop]
    omega

/-- `fallbackTokenize` round trip. -/
theorem fallbackTokenize_round_trip (stopw : List Chars)
    (dict : List (Chars × Chars)) (t : Chars) :
    ∀ tk ∈ Tokenizer.fallbackTokenize stopw dict t,
      subStr t tk.start tk.stop = tk.text := by
  intro tk htk
  rw [Tokenizer.fallbackTokenize] at htk
  rw [mem_sortByStart] at htk
  rcases List.mem_append.1 htk with h | h
  · rcases List.mem_append.1 h with h' | h'
    · exact chineseScan_round_trip stopw t _
        (matchStrs_cls_length ccCJK t) tk h'
    · exact englishScan_round_trip stopw dict t _ tk h'
  · exact numberScan_round_trip t _ tk h

/-- C2: for every input string and every token returned by
`Tokenizer.tokenize` — on the segmentation-engine path as well as the
regex fallback path — the substring of the text from `token.start` to
`token.end` equals `token.text`. -/
theorem c2_tokenize_round_trip (cut : Chars → List Chars) (avail : Bool)
    (stopw : List Chars) (dict : List (Chars × Chars)) (text : Chars)
    (tk : Tokenizer.Token)
    (htk : tk ∈ Tokenizer.tokenize cut avail stopw dict text) :
    subStr text tk.start tk.stop = tk.text := by
  rw [Tokenizer.tokenize] at htk
  by_cases hempty : text.isEmpty
  · simp [hempty] at htk
  · rw [if_neg (by simpa using hempty)] at htk
    by_cases hcj : (text.any ccCJK.mem && avail) = true
    · rw [if_pos hcj] at htk
      exact jiebaScan_round_trip stopw dict text (cut text) tk htk
    · rw [if_neg hcj] at htk
      exact fallbackTokenize_round_trip stopw dict text tk htk

/-- Witness for C2 at a concrete input: tokenizing `"a1"` on the fallback
path yields the token `⟨"a", 0, 1⟩`, whose substring round-trips. -/
theorem c2_tokenize_round_trip_witness :
    (⟨"a".toList, 0, 1, "english".toList⟩ : Tokenizer.Token) ∈
      Tokenizer.tokenize (fun _ => []) false [] [] "a1".toList ∧
    subStr "a1".toList 0 1 = "a".toList :=
  ⟨by decide, c2_tokenize_round_trip (fun _ => []) false [] [] "a1".toList
    ⟨"a".toList, 0, 1, "english".toList⟩ (by decide)⟩

/-! ## EntityExtractor (`src/data/extractor/EntityExtractor.ts`) -/

namespace EntityExtractor

/-- An entity (`types.ts`): `id` is assigned by storage, so it is absent
(`none`) on freshly extracted entities; `confidence` is optional as in the
source. -/
structure Entity where
  id : Option Nat := none
  name : Chars
  type : Chars
  docId : Chars
  startPos : Nat
  endPos : Nat
  source : Option Chars := none
  confidence : Option ℚ := none
deriving DecidableEq, Repr

/-- `[省市县区乡镇村]`. -/
def ccLocSuffix : CClass := ccOf "省市县区乡镇村".toList false

/-- `[公司企业集团大学学院医院]` (a character class in the source). -/
def ccOrgSuffix : CClass := ccOf "公司企业集团大学学院医院".toList false

/-- The default rule map of `initDefaultRules`, in insertion order:
`person` `/[一-龥]{2,4}/g`, `location` `/[一-龥]+[省市县区乡镇村]/g`,
`organization` `/[一-龥]+[公司企业集团大学学院医院]/g`,
`number` `/\d+(\.\d+)?/g`,
`time` `/\d{4}[-\/年]\d{1,2}[-\/月]\d{1,2}([日号])?/g` and
`/\d{1,2}:\d{2}(:\d{2})?/g`. -/
def entityRules : List (Chars × List (List RItem)) :=
  [("person".toList, [[.rep ccCJK 2 (some 4)]]),
   ("location".toList, [[.rep ccCJK 1 none, .cls ccLocSuffix]]),
   ("organization".toList, [[.rep ccCJK 1 none, .cls ccOrgSuffix]]),
   ("number".toList, [[.rep ccDigit 1 none, .optPart ['.'] ccDigit 1 none]]),
   ("time".toList,
    [[.rep ccDigit 4 (some 4), .cls (ccOf "-/年".toList false),
      .rep ccDigit 1 (some 2), .cls (ccOf "-/月".toList false),
      .rep ccDigit 1 (some 2), .optPart [] (ccOf "日号".toList false) 1 (some 1)],
     [.rep ccDigit 1 (some 2), .lit [':'], .rep ccDigit 2 (some 2),
      .optPart [':'] ccDigit 2 (some 2)]])]

/-- `new Map([...this.entityRules, ...this.customEntityTypes])`: rebuild
the map from the concatenated entry lists with JS `Map.set` semantics. -/
def jsMapOfEntries [DecidableEq κ] (l : List (κ × α)) : List (κ × α) :=
  l.foldl (fun m p => jsMapSet m p.1 p.2) []

/-- The merged rule map used by `extract`. -/
def allEntityRules (custom : List (Chars × List (List RItem))) :
    List (Chars × List (List RItem)) :=
  jsMapOfEntries (entityRules ++ custom)

/-- `EntityExtractor.extractByRules`: run every rule of every entity type
over the text; claim each position span `"start-end"` at most once (first
rule wins); produced entities carry `source = "rule"`, confidence 0.7. -/
def extractByRules (text : Chars)
    (rules : List (Chars × List (List RItem))) (docId : Chars) :
    List Entity :=
  (rules.foldl (fun acc p =>
    p.2.foldl (fun acc re =>
      (execAll re text).foldl (fun acc m =>
        let entityName := subStr text m.start m.stop
        let startPos := m.start
        let endPos := startPos + entityName.length
        let key := toString startPos ++ "-" ++ toString endPos
        if key ∈ acc.2 then acc
        else (acc.1 ++ [{ name := entityName, type := p.1, docId := docId,
                          startPos := startPos, endPos := endPos,
                          source := some "rule".toList,
                          confidence := some (7/10) }],
              acc.2 ++ [key])) acc) acc)
    (([] : List Entity), ([] : List String))).1

/-- An entity record of the LLM response JSON (`{name, type, start, end}`). -/
structure LLMEntity where
  name : Chars
  type : Chars
  start : Nat
  stop : Nat
deriving DecidableEq, Repr

/-- Outcome of the chat-completion HTTP call made by `extractByLLM`:
either the request throws (network error, timeout, non-2xx surfaced by
`RequestUtil`), or it yields a response whose
`choices[0].message.content` either parses as an entity array
(`some entities`) or fails `JSON.parse`/`.map` (`none`). -/
inductive LLMOutcome where
  | netFailure
  | response (parsed : Option (List LLMEntity))

/-- `EntityExtractor.extractByLLM` as an `Except` (a thrown exception is
`.error`): without an endpoint it returns no entities; a request failure
propagates; a parse failure is caught inside and yields zero entities;
parsed entities are mapped with `source = "llm"`, confidence 0.9. -/
def extractByLLM (hasEndpoint : Bool) (outcome : LLMOutcome)
    (docId : Chars) : Except Unit (List Entity) :=
  if !hasEndpoint then .ok []
  else
    match outcome with
    | .netFailure => .error ()
    | .response none => .ok []
    | .response (some es) =>
      .ok (es.map fun e =>
        { name := e.name, type := e.type, docId := docId,
          startPos := e.start, endPos := e.stop,
          source := some "llm".toList, confidence := some (9/10) })

/-- `EntityExtractor.extract`: empty text yields `[]`; with an LLM
configured the LLM result is returned when the call does not throw, and a
thrown call is caught and falls back to rule extraction.  The result is
an `Except` to show that no exception escapes. -/
def extract (custom : List (Chars × List (List RItem)))
    (llmConfigured hasEndpoint : Bool) (outcome : LLMOutcome)
    (text docId : Chars) : Except Unit (List Entity) :=
  if text.isEmpty then .ok []
  else if llmConfigured then
    match extractByLLM hasEndpoint outcome docId with
    | .ok llmEntities => .ok llmEntities
    | .error _ => .ok (extractByRules text (allEntityRules custom) docId)
  else .ok (extractByRules text (allEntityRules custom) docId)

/-- `EntityExtractor.mergeEntities` key:
`` `${entity.docId}-${entity.startPos}-${entity.endPos}-${entity.name}` ``. -/
def mergeKey (e : Entity) : String :=
  String.mk e.docId ++ "-" ++ toString e.startPos ++ "-" ++
    toString e.endPos ++ "-" ++ String.mk e.name

/-- One loop iteration of `mergeEntities`: set the key unless an entity
with the same key and at-least-as-high `confidence || 0` is present. -/
def mergeStep (m : List (String × Entity)) (e : Entity) :
    List (String × Entity) :=
  match jsMapGet m (mergeKey e) with
  | none => jsMapSet m (mergeKey e) e
  | some e0 =>
    if e0.confidence.getD 0 < e.confidence.getD 0 then
      jsMapSet m (mergeKey e) e
    else m

/-- `EntityExtractor.mergeEntities`: deduplicate by the string key,
keeping the strictly-higher-confidence entity (`confidence || 0`). -/
def mergeEntities (entities : List Entity) : List Entity :=
  jsMapValues (entities.foldl mergeStep [])

/-- The `(docId, startPos, endPos, name)` duplicate tuple of the data
model. -/
def tupleOf (e : Entity) : Chars × Nat × Nat × Chars :=
  (e.docId, e.startPos, e.endPos, e.name)

end EntityExtractor

/-- Counterexample to C1: with an LLM configured and a response that
cannot be parsed as JSON, `extract` returns the empty entity list (the
parse failure is caught inside `extractByLLM`, which returns zero
entities without throwing), while rule extraction on the same text
`"12"` returns a `number` entity — so the parse-failure case does *not*
fall back to rule extraction. -/
theorem c1_counterexample :
    EntityExtractor.extract [] true true (.response none)
      "12".toList "d".toList = .ok [] ∧
    EntityExtractor.extractByRules "12".toList
      (EntityExtractor.allEntityRules []) "d".toList =
      [{ name := "12".toList, type := "number".toList, docId := "d".toList,
         startPos := 0, endPos := 2, source := some "rule".toList,
         confidence := some (7/10) }] ∧
    ([] : List EntityExtractor.Entity) ≠
      EntityExtractor.extractByRules "12".toList
        (EntityExtractor.allEntityRules []) "d".toList := by
  have hrules : EntityExtractor.extractByRules "12".toList
      (EntityExtractor.allEntityRules []) "d".toList =
      [{ name := "12".toList, type := "number".toList, docId := "d".toList,
         startPos := 0, endPos := 2, source := some "rule".toList,
         confidence := some (7/10) }] := by
    with_unfolding_all rfl
  refine ⟨by with_unfolding_all rfl, hrules, ?_⟩
  rw [hrules]
  simp

/-- C1 (amended): if an LLM is configured, LLM extraction is attempted
first; when the HTTP call itself throws (network error, timeout) the
failure is caught and the result of rule extraction is returned; when the
call succeeds but the response cannot be parsed as JSON, the empty entity
list is returned (no rule fallback); in every case the call returns
normally — no LLM failure escapes as an exception. -/
theorem c1_llm_failure_handling (custom : List (Chars × List (List RItem)))
    (text docId : Chars) (h : text ≠ []) :
    EntityExtractor.extract custom true true .netFailure text docId =
      .ok (EntityExtractor.extractByRules text
        (EntityExtractor.allEntityRules custom) docId) ∧
    EntityExtractor.extract custom true true (.response none) text docId =
      .ok [] ∧
    (∀ (cfg ep : Bool) (o : EntityExtractor.LLMOutcome),
      ∃ es, EntityExtractor.extract custom cfg ep o text docId = .ok es) := by
  have hne : text.isEmpty = false := by
    cases text with
    | nil => exact absurd rfl h
    | cons c r => rfl
  refine ⟨?_, ?_, ?_⟩
  · rw [EntityExtractor.extract, hne]
    rfl
  · rw [EntityExtractor.extract, hne]
    rfl
  · intro cfg ep o
    rw [EntityExtractor.extract]
    by_cases he : text.isEmpty
    · rw [he]; exact ⟨[], rfl⟩
    · rw [hne]
      cases cfg with
      | false => exact ⟨_, rfl⟩
      | true =>
        rcases hl : EntityExtractor.extractByLLM ep o docId with e | es
        · exact ⟨_, rfl⟩
        · exact ⟨es, rfl⟩

/-- Witness for C1 at a concrete input (`text = "12"`): the network
failure falls back to the `number` rule entity; the unparseable response
yields `[]`. -/
theorem c1_llm_failure_handling_witness :
    ("12".toList ≠ ([] : Chars)) ∧
    EntityExtractor.extract [] true true .netFailure "12".toList "d".toList =
      .ok (EntityExtractor.extractByRules "12".toList
        (EntityExtractor.allEntityRules []) "d".toList) ∧
    EntityExtractor.extract [] true true (.response none) "12".toList
      "d".toList = .ok [] :=
  ⟨by decide,
   (c1_llm_failure_handling [] "12".toList "d".toList (by decide)).1,
   (c1_llm_failure_handling [] "12".toList "d".toList (by decide)).2.1⟩

/-! ### C3: the `mergeEntities` deduplication -/

theorem jsMapHas_false_iff [DecidableEq κ] (m : List (κ × α)) (k : κ) :
    jsMapHas m k = false ↔ ∀ p ∈ m, p.1 ≠ k := by
  simp [jsMapHas]

theorem jsMapGet_eq_none_iff [DecidableEq κ] (m : List (κ × α)) (k : κ) :
    jsMapGet m k = none ↔ jsMapHas m k = false := by
  simp [jsMapGet, jsMapHas, List.find?_eq_none]

theorem jsMapGet_mem [DecidableEq κ] {m : List (κ × α)} {k : κ} {v : α}
    (h : jsMapGet m k = some v) : (k, v) ∈ m := by
  rw [jsMapGet] at h
  rcases hf : m.find? (fun p => decide (p.1 = k)) with _ | p
  · rw [hf] at h; cases h
  · rw [hf] at h
    have hp := List.find?_some hf
    have hmem := List.mem_of_find?_eq_some hf
    simp only [Option.map_some', Option.some.injEq] at h
    have hk : p.1 = k := by simpa using hp
    have : (k, v) = p := by
      rw [← hk, ← h]
    rwa [this]

theorem jsMapHas_of_mem [DecidableEq κ] {m : List (κ × α)} {p : κ × α}
    (h : p ∈ m) : jsMapHas m p.1 = true := by
  simp only [jsMapHas, List.any_eq_true]
  exact ⟨p, h, by simp⟩

/-- In an association list with distinct keys, two entries with the same
key coincide. -/
theorem eq_of_key_eq_of_nodup [DecidableEq κ] {m : List (κ × α)}
    (h : (m.map Prod.fst).Nodup) {p q : κ × α}
    (hp : p ∈ m) (hq : q ∈ m) (heq : p.1 = q.1) : p = q := by
  induction m with
  | nil => cases hp
  | cons x r ih =>
    rw [List.map_cons, List.nodup_cons] at h
    rcases List.mem_cons.1 hp with rfl | hp' <;>
      rcases List.mem_cons.1 hq with rfl | hq'
    · rfl
    · exact absurd (heq ▸ List.mem_map_of_mem Prod.fst hq') h.1
    · exact absurd (heq ▸ List.mem_map_of_mem Prod.fst hp') h.1
    · exact ih h.2 hp' hq'

/-- In an association list with distinct keys containing `p0`, filtering
by the key of `p0` yields exactly `[p0]`. -/
theorem filter_key_nodup [DecidableEq κ] {m : List (κ × α)}
    (h : (m.map Prod.fst).Nodup) {p0 : κ × α} (hp : p0 ∈ m) :
    m.filter (fun p => decide (p.1 = p0.1)) = [p0] := by
  induction m with
  | nil => cases hp
  | cons x r ih =>
    rw [List.map_cons, List.nodup_cons] at h
    rcases List.mem_cons.1 hp with rfl | hp'
    · rw [List.filter_cons_of_pos (by simp)]
      have : r.filter (fun p => decide (p.1 = p0.1)) = [] := by
        rw [List.filter_eq_nil_iff]
        intro q hq hq'
        have hq1 : q.1 = p0.1 := by simpa using hq'
        exact h.1 (hq1 ▸ List.mem_map_of_mem Prod.fst hq)
      rw [this]
    · have hx : ¬ (x.1 = p0.1) := by
        intro hc
        exact h.1 (hc ▸ List.mem_map_of_mem Prod.fst hp')
      rw [List.filter_cons_of_neg (by simpa using hx)]
      exact ih h.2 hp'

theorem mergeKey_congr {e1 e2 : EntityExtractor.Entity}
    (h : EntityExtractor.tupleOf e1 = EntityExtractor.tupleOf e2) :
    EntityExtractor.mergeKey e1 = EntityExtractor.mergeKey e2 := by
  simp only [EntityExtractor.tupleOf, Prod.ext_iff] at h
  rw [EntityExtractor.mergeKey, EntityExtractor.mergeKey,
    h.1, h.2.1, h.2.2.1, h.2.2.2]

/-- The loop invariant of the `mergeEntities` fold: every stored entry is
keyed by its own `mergeKey` and comes from the processed input; keys are
distinct; every processed entity's key is present; and each stored entry
maximises `confidence || 0` among processed entities with its key. -/
theorem mergeFold_invariant (l : List EntityExtractor.Entity) :
    ∀ (m : List (String × EntityExtractor.Entity))
      (processed : List EntityExtractor.Entity),
    (∀ p ∈ m, EntityExtractor.mergeKey p.2 = p.1 ∧ p.2 ∈ processed) →
    (m.map Prod.fst).Nodup →
    (∀ e ∈ processed, ∃ p ∈ m, p.1 = EntityExtractor.mergeKey e) →
    (∀ p ∈ m, ∀ e ∈ processed, EntityExtractor.mergeKey e = p.1 →
      e.confidence.getD 0 ≤ p.2.confidence.getD 0) →
    ((∀ p ∈ l.foldl EntityExtractor.mergeStep m,
        EntityExtractor.mergeKey p.2 = p.1 ∧ p.2 ∈ processed ++ l) ∧
     ((l.foldl EntityExtractor.mergeStep m).map Prod.fst).Nodup ∧
     (∀ e ∈ processed ++ l, ∃ p ∈ l.foldl EntityExtractor.mergeStep m,
        p.1 = EntityExtractor.mergeKey e) ∧
     (∀ p ∈ l.foldl EntityExtractor.mergeStep m, ∀ e ∈ processed ++ l,
        EntityExtractor.mergeKey e = p.1 →
        e.confidence.getD 0 ≤ p.2.confidence.getD 0)) := by
  induction l with
  | nil =>
    intro m processed h1 h2 h3 h4
    rw [List.foldl_nil, List.append_nil]
    exact ⟨h1, h2, h3, h4⟩
  | cons e l ih =>
    intro m processed h1 h2 h3 h4
    have happ : processed ++ e :: l = (processed ++ [e]) ++ l := by simp
    rw [List.foldl_cons, happ]
    set key := EntityExtractor.mergeKey e with hkey
    rcases hget : jsMapGet m key with _ | e0
    · -- key absent: append a fresh entry
      have hhas : jsMapHas m key = false := (jsMapGet_eq_none_iff m key).1 hget
      have hset : EntityExtractor.mergeStep m e = m ++ [(key, e)] := by
        simp only [EntityExtractor.mergeStep, hget, ← hkey, jsMapSet, hhas]
        simp
      rw [hset]
      apply ih
      · intro p hp
        rcases List.mem_append.1 hp with hp' | hp'
        · exact ⟨(h1 p hp').1, List.mem_append_left _ (h1 p hp').2⟩
        · rw [List.mem_singleton] at hp'
          subst hp'
          exact ⟨rfl, by simp⟩
      · have hnotin : key ∉ m.map Prod.fst := by
          rw [jsMapHas_false_iff] at hhas
          intro hc
          obtain ⟨p, hp, hp'⟩ := List.mem_map.1 hc
          exact hhas p hp hp'
        simp only [List.map_append, List.map_cons, List.map_nil]
        rw [List.nodup_append]
        exact ⟨h2, List.nodup_singleton key, by simpa using hnotin⟩
      · intro e' he'
        rcases List.mem_append.1 he' with he'' | he''
        · obtain ⟨p, hp, hp'⟩ := h3 e' he''
          exact ⟨p, List.mem_append_left _ hp, hp'⟩
        · rw [List.mem_singleton] at he''
          subst he''
          exact ⟨(key, e'), by simp, rfl⟩
      · intro p hp e' he' hke
        rw [jsMapHas_false_iff] at hhas
        rcases List.mem_append.1 hp with hp' | hp' <;>
          rcases List.mem_append.1 he' with he'' | he''
        · exact h4 p hp' e' he'' hke
        · rw [List.mem_singleton] at he''
          subst he''
          exact absurd (hke ▸ hhas p hp') (by simp)
        · obtain ⟨q, hq, hq'⟩ := h3 e' he''
          rw [List.mem_singleton] at hp'
          subst hp'
          exact absurd (hhas q hq) (by simp [hq', hke])
        · rw [List.mem_singleton] at hp'
          rw [List.mem_singleton] at he''
          subst hp'; subst he''
          exact le_refl _
    · -- key present
      have hmem : (key, e0) ∈ m := jsMapGet_mem hget
      have hhas : jsMapHas m key = true := jsMapHas_of_mem hmem
      by_cases hlt : e0.confidence.getD 0 < e.confidence.getD 0
      · -- replace the entry in place
        have hset : EntityExtractor.mergeStep m e =
            m.map (fun p => if p.1 = key then (key, e) else p) := by
          simp only [EntityExtractor.mergeStep, hget, ← hkey, if_pos hlt,
            jsMapSet, hhas]
          simp
        rw [hset]
        apply ih
        · intro p' hp'
          obtain ⟨p, hp, rfl⟩ := List.mem_map.1 hp'
          by_cases hpk : p.1 = key
          · rw [if_pos hpk]
            exact ⟨rfl, by simp⟩
          · rw [if_neg hpk]
            exact ⟨(h1 p hp).1, List.mem_append_left _ (h1 p hp).2⟩
        · have : (m.map (fun p => if p.1 = key then (key, e) else p)).map
              Prod.fst = m.map Prod.fst := by
            rw [List.map_map]
            apply List.map_congr_left
            intro p _
            by_cases hpk : p.1 = key
            · simp [hpk]
            · simp [hpk]
          rw [this]
          exact h2
        · intro e' he'
          rcases List.mem_append.1 he' with he'' | he''
          · obtain ⟨p, hp, hp'⟩ := h3 e' he''
            refine ⟨if p.1 = key then (key, e) else p, List.mem_map_of_mem _ hp, ?_⟩
            by_cases hpk : p.1 = key
            · rw [if_pos hpk, ← hpk, hp']
            · rw [if_neg hpk, hp']
          · rw [List.mem_singleton] at he''
            refine ⟨(key, e), List.mem_map.2 ⟨(key, e0), hmem, by simp⟩, ?_⟩
            rw [he'', hkey]
        · intro p' hp' e' he' hke
          obtain ⟨p, hp, rfl⟩ := List.mem_map.1 hp'
          rcases List.mem_append.1 he' with he'' | he''
          · by_cases hpk : p.1 = key
            · rw [if_pos hpk] at hke ⊢
              have h1' : e'.confidence.getD 0 ≤ e0.confidence.getD 0 :=
                h4 (key, e0) hmem e' he'' (by simpa using hke)
              exact le_of_lt (lt_of_le_of_lt h1' hlt)
            · rw [if_neg hpk] at hke ⊢
              exact h4 p hp e' he'' hke
          · rw [List.mem_singleton] at he''
            subst he''
            by_cases hpk : p.1 = key
            · rw [if_pos hpk]
            · rw [if_neg hpk] at hke
              exact absurd hke.symm hpk
      · -- keep the stored entry
        have hset : EntityExtractor.mergeStep m e = m := by
          simp only [EntityExtractor.mergeStep, hget, ← hkey, if_neg hlt]
        rw [hset]
        apply ih
        · intro p hp
          exact ⟨(h1 p hp).1, List.mem_append_left _ (h1 p hp).2⟩
        · exact h2
        · intro e' he'
          rcases List.mem_append.1 he' with he'' | he''
          · exact h3 e' he''
          · rw [List.mem_singleton] at he''
            subst he''
            exact ⟨(key, e0), hmem, rfl⟩
        · intro p hp e' he' hke
          rcases List.mem_append.1 he' with he'' | he''
          · exact h4 p hp e' he'' hke
          · rw [List.mem_singleton] at he''
            subst he''
            have hpe : p = (key, e0) :=
              eq_of_key_eq_of_nodup h2 hp hmem (by simpa using hke.symm)
            rw [hpe]
            exact not_lt.1 hlt

/-- Counterexample to C3: the dedup key is the *string*
`` `${docId}-${startPos}-${endPos}-${name}` ``, and distinct
`(docId, startPos, endPos, name)` tuples can collide on it.  Entities `A`
and `B` share the tuple `("d", 1, 2, "3-x")`; entity `C` with the
different tuple `("d-1", 2, 3, "x")` produces the same string key
`"d-1-2-3-x"` and a higher confidence, so it evicts the whole group:
*no* entity with the duplicated tuple survives the merge, contradicting
“only one entity with that key survives, and it is the one with the
highest confidence”. -/
theorem c3_counterexample :
    EntityExtractor.mergeEntities
      [{ name := "3-x".toList, type := "t".toList, docId := "d".toList,
         startPos := 1, endPos := 2, confidence := some (9/10) },
       { name := "3-x".toList, type := "t".toList, docId := "d".toList,
         startPos := 1, endPos := 2, confidence := some (8/10) },
       { name := "x".toList, type := "t".toList, docId := "d-1".toList,
         startPos := 2, endPos := 3, confidence := some (95/100) }] =
      [{ name := "x".toList, type := "t".toList, docId := "d-1".toList,
         startPos := 2, endPos := 3, confidence := some (95/100) }] ∧
    (EntityExtractor.mergeEntities
      [{ name := "3-x".toList, type := "t".toList, docId := "d".toList,
         startPos := 1, endPos := 2, confidence := some (9/10) },
       { name := "3-x".toList, type := "t".toList, docId := "d".toList,
         startPos := 1, endPos := 2, confidence := some (8/10) },
       { name := "x".toList, type := "t".toList, docId := "d-1".toList,
         startPos := 2, endPos := 3, confidence := some (95/100) }]).filter
      (fun e => decide (EntityExtractor.tupleOf e =
        ("d".toList, 1, 2, "3-x".toList))) = [] := by
  constructor
  · with_unfolding_all rfl
  · with_unfolding_all rfl

/-- C3 (amended): *provided the string keys are injective over the
`(docId, startPos, endPos, name)` tuples occurring in the input* (no
hyphen-induced collision), exactly one entity with each occurring tuple
survives `mergeEntities`, it comes from the input, and its
`confidence || 0` is maximal among the input entities with that tuple
(ties keep the earliest). -/
theorem c3_merge_dedup (l : List EntityExtractor.Entity)
    (k : Chars × Nat × Nat × Chars)
    (hinj : ∀ e1 ∈ l, ∀ e2 ∈ l,
      EntityExtractor.mergeKey e1 = EntityExtractor.mergeKey e2 →
      EntityExtractor.tupleOf e1 = EntityExtractor.tupleOf e2)
    (hk : ∃ e ∈ l, EntityExtractor.tupleOf e = k) :
    ∃ w, (EntityExtractor.mergeEntities l).filter
        (fun e => decide (EntityExtractor.tupleOf e = k)) = [w] ∧
      w ∈ l ∧ EntityExtractor.tupleOf w = k ∧
      ∀ e ∈ l, EntityExtractor.tupleOf e = k →
        e.confidence.getD 0 ≤ w.confidence.getD 0 := by
  obtain ⟨inv1, inv2, inv3, inv4⟩ :=
    mergeFold_invariant l [] [] (by simp) (by simp) (by simp) (by simp)
  rw [List.nil_append] at inv1 inv3 inv4
  obtain ⟨estar, hestar, htup⟩ := hk
  obtain ⟨p0, hp0, hp0k⟩ := inv3 estar hestar
  have hiff : ∀ p ∈ l.foldl EntityExtractor.mergeStep [],
      (EntityExtractor.tupleOf p.2 = k ↔ p.1 = p0.1) := by
    intro p hp
    constructor
    · intro ht
      have hk' : EntityExtractor.mergeKey p.2 = EntityExtractor.mergeKey estar :=
        mergeKey_congr (ht.trans htup.symm)
      rw [← (inv1 p hp).1, hk', ← hp0k]
    · intro hpk
      have hk' : EntityExtractor.mergeKey p.2 = EntityExtractor.mergeKey estar := by
        rw [(inv1 p hp).1, hpk, hp0k]
      exact (hinj p.2 (inv1 p hp).2 estar hestar hk').trans htup
  refine ⟨p0.2, ?_, (inv1 p0 hp0).2, (hiff p0 hp0).2 rfl, ?_⟩
  · rw [EntityExtractor.mergeEntities, jsMapValues, List.filter_map]
    have hcong : (l.foldl EntityExtractor.mergeStep []).filter
        ((fun v => decide (EntityExtractor.tupleOf v = k)) ∘ (·.2)) =
        (l.foldl EntityExtractor.mergeStep []).filter
          (fun p => decide (p.1 = p0.1)) := by
      apply List.filter_congr
      intro p hp
      simpa using (hiff p hp)
    rw [hcong, filter_key_nodup inv2 hp0]
    rfl
  · intro e he ht
    have hk' : EntityExtractor.mergeKey e = p0.1 := by
      rw [mergeKey_congr (ht.trans htup.symm), hp0k]
    exact inv4 p0 hp0 e he hk'

/-- Concrete input for the C3 witness: two entities sharing the tuple
`("d", 0, 1, "n")` with confidences `1/2` and `3/4`. -/
def mergeWitnessInput : List EntityExtractor.Entity :=
  [{ name := "n".toList, type := "t".toList, docId := "d".toList,
     startPos := 0, endPos := 1, confidence := some (1/2) },
   { name := "n".toList, type := "t".toList, docId := "d".toList,
     startPos := 0, endPos := 1, confidence := some (3/4) }]

/-- Witness for C3 (amended) at a concrete input: both hypotheses hold on
`mergeWitnessInput` and the merge keeps exactly one maximal-confidence
survivor of the duplicated tuple. -/
theorem c3_merge_dedup_witness :
    (∀ e1 ∈ mergeWitnessInput, ∀ e2 ∈ mergeWitnessInput,
      EntityExtractor.mergeKey e1 = EntityExtractor.mergeKey e2 →
      EntityExtractor.tupleOf e1 = EntityExtractor.tupleOf e2) ∧
    (∃ e ∈ mergeWitnessInput,
      EntityExtractor.tupleOf e = ("d".toList, 0, 1, "n".toList)) ∧
    (∃ w, (EntityExtractor.mergeEntities mergeWitnessInput).filter
        (fun e => decide (EntityExtractor.tupleOf e =
          ("d".toList, 0, 1, "n".toList))) = [w] ∧
      w ∈ mergeWitnessInput ∧
      EntityExtractor.tupleOf w = ("d".toList, 0, 1, "n".toList) ∧
      ∀ e ∈ mergeWitnessInput,
        EntityExtractor.tupleOf e = ("d".toList, 0, 1, "n".toList) →
        e.confidence.getD 0 ≤ w.confidence.getD 0) :=
  have hinj : ∀ e1 ∈ mergeWitnessInput, ∀ e2 ∈ mergeWitnessInput,
      EntityExtractor.mergeKey e1 = EntityExtractor.mergeKey e2 →
      EntityExtractor.tupleOf e1 = EntityExtractor.tupleOf e2 := by
    with_unfolding_all decide
  have hk : ∃ e ∈ mergeWitnessInput,
      EntityExtractor.tupleOf e = ("d".toList, 0, 1, "n".toList) := by
    with_unfolding_all decide
  ⟨hinj, hk, c3_merge_dedup mergeWitnessInput _ hinj hk⟩

/-! ## RelationExtractor (`src/data/extractor/RelationExtractor.ts`) -/

namespace RelationExtractor

/-- A relationship (`types.ts`).  The endpoint ids are declared `number`
in the source, but `extractByRules` copies `entity.id!` — a bare type
assertion — so an id-less entity really injects `undefined`; the model
therefore carries `Option Nat`. -/
structure Relationship where
  sourceEntityId : Option Nat
  targetEntityId : Option Nat
  type : Chars
  docId : Chars
  confidence : ℚ
  source : Option Chars := none
  evidenceText : Option Chars := none
deriving DecidableEq, Repr

/-- `[^，。；；\s]` — the capture-group class of every default relation
pattern (`，` U+FF0C, `。` U+3002, `；` U+FF1B written twice, `\s`). -/
def ccNotSep : CClass :=
  ⟨[('，', '，'), ('。', '。'), ('；', '；'), ('；', '；')] ++ ccSpaceRanges,
   true⟩

/-- First capture group `([^，。；；\s]+)`. -/
def g1 : RItem := .grpRep 1 ccNotSep 1 none

/-- Second capture group `([^，。；；\s]+)`. -/
def g2 : RItem := .grpRep 2 ccNotSep 1 none

/-- The default relation pattern map of `initDefaultRelations`. -/
def relationPatterns : List (Chars × List (List RItem)) :=
  [("associate".toList,
    [[g1, .lit "与".toList, g2, .lit "相关".toList],
     [g1, .lit "和".toList, g2, .lit "有关".toList]]),
   ("belong_to".toList,
    [[g1, .lit "属于".toList, g2],
     [g1, .lit "是".toList, g2, .lit "的一部分".toList]]),
   ("contain".toList,
    [[g1, .lit "包含".toList, g2],
     [g1, .lit "包括".toList, g2]]),
   ("describe".toList,
    [[g1, .lit "是".toList, g2],
     [g1, .lit "被描述为".toList, g2]]),
   ("reference".toList,
    [[g1, .lit "引用了".toList, g2],
     [g1, .lit "参考了".toList, g2]])]

/-- The number of capture groups of an embedded pattern;
`match.length > 2` in the source is `numGroups ≥ 2` (the match array has
one slot per group plus the whole match). -/
def numGroups (re : List RItem) : Nat :=
  (re.filter (fun i => match i with | .grpRep .. => true | _ => false)).length

/-- `RelationExtractor.buildEntityMap`: group entities by exact name,
preserving insertion order. -/
def buildEntityMap (entities : List EntityExtractor.Entity) :
    List (Chars × List EntityExtractor.Entity) :=
  entities.foldl (fun m e =>
    if jsMapHas m e.name then
      m.map (fun p => if p.1 = e.name then (p.1, p.2 ++ [e]) else p)
    else m ++ [(e.name, [e])]) []

/-- `RelationExtractor.extractByRules`: run every pattern of every
relation type; each match with two capture groups resolves both captured
names against all same-named entities of the same document and yields a
candidate relationship per entity pair, confidence 0.8, `source="rule"`,
evidence = the whole match. -/
def extractByRules (entities : List EntityExtractor.Entity) (text : Chars)
    (patterns : List (Chars × List (List RItem))) (docId : Chars) :
    List Relationship :=
  let entityMap := buildEntityMap entities
  patterns.foldl (fun acc p =>
    p.2.foldl (fun acc re =>
      (execAll re text).foldl (fun acc m =>
        if numGroups re + 1 > 2 then
          let sourceEntityName := capStr text m 1
          let targetEntityName := capStr text m 2
          let sourceEntities := (jsMapGet entityMap sourceEntityName).getD []
          let targetEntities := (jsMapGet entityMap targetEntityName).getD []
          sourceEntities.foldl (fun acc se =>
            targetEntities.foldl (fun acc te =>
              if se.docId = docId ∧ te.docId = docId then
                acc ++ [{ sourceEntityId := se.id, targetEntityId := te.id,
                          type := p.1, docId := docId, confidence := 8/10,
                          source := some "rule".toList,
                          evidenceText := some (subStr text m.start m.stop) }]
              else acc) acc) acc
        else acc) acc) acc) []

/-- `text.split(/[。；！？\n]+/)`: split on maximal separator runs;
leading/trailing separators produce empty segments, as in JavaScript.
Single pass: `inSep` records whether the previous character was part of a
separator run (so further separators extend the run instead of emitting
empty segments). -/
def splitRunsGo (sep : Char → Bool) : Chars → Chars → Bool → List Chars
  | [], acc, _ => [acc.reverse]
  | c :: r, acc, inSep =>
    if sep c then
      if inSep then splitRunsGo sep r acc true
      else acc.reverse :: splitRunsGo sep r [] true
    else splitRunsGo sep r (c :: acc) false

/-- See `splitRunsGo`. -/
def splitRuns (sep : Char → Bool) (t : Chars) : List Chars :=
  splitRunsGo sep t [] false

/-- `[。；！？\n]` — the sentence-terminal class. -/
def ccSentenceEnd : CClass := ccOf "。；！？\n".toList false

/-- `sentence.includes(name)`. -/
def containsSub (s w : Chars) : Bool := (indexOfFrom s w 0).isSome

/-- All unordered index pairs `i < j`, in the source's nested-loop order. -/
def allPairs : List α → List (α × α)
  | [] => []
  | x :: r => r.map (fun y => (x, y)) ++ allPairs r

/-- `RelationExtractor.extractByCooccurrence`: split into sentences; the
entities of this document whose name occurs in the sentence and that have
an id form pairwise `cooccur` relationships, confidence 0.5. -/
def extractByCooccurrence (entities : List EntityExtractor.Entity)
    (text : Chars) (docId : Chars) : List Relationship :=
  let sentences := splitRuns ccSentenceEnd.mem text
  sentences.foldl (fun acc sentence =>
    let sentenceEntities := entities.filter (fun e =>
      e.docId = docId && containsSub sentence e.name && e.id.isSome)
    if sentenceEntities.length > 1 then
      acc ++ (allPairs sentenceEntities).map (fun q =>
        { sourceEntityId := q.1.id, targetEntityId := q.2.id,
          type := "cooccur".toList, docId := docId, confidence := 5/10,
          source := some "cooccur".toList, evidenceText := some sentence })
    else acc) []

/-- A relationship record of the LLM response JSON. -/
structure LLMRel where
  sourceEntityId : Option Nat
  targetEntityId : Option Nat
  type : Chars
  evidenceText : Chars
deriving DecidableEq, Repr

/-- Outcome of the LLM call of `RelationExtractor.extractByLLM`. -/
inductive RelLLMOutcome where
  | netFailure
  | response (parsed : Option (List LLMRel))

/-- `RelationExtractor.extractByLLM` (same shape as the entity one):
missing endpoint yields no relationships; a thrown request propagates; a
parse failure is caught and yields none; parsed relationships are mapped
with confidence 0.9, `source="llm"`. -/
def extractByLLM (hasEndpoint : Bool) (outcome : RelLLMOutcome)
    (docId : Chars) : Except Unit (List Relationship) :=
  if !hasEndpoint then .ok []
  else
    match outcome with
    | .netFailure => .error ()
    | .response none => .ok []
    | .response (some rels) =>
      .ok (rels.map fun r =>
        { sourceEntityId := r.sourceEntityId,
          targetEntityId := r.targetEntityId, type := r.type,
          docId := docId, confidence := 9/10,
          source := some "llm".toList,
          evidenceText := some r.evidenceText })

/-- The merge key of `mergeRelationships`:
`` `${sourceEntityId}-${targetEntityId}-${type}` `` (an `undefined` id
prints as the string `"undefined"`). -/
def optIdStr : Option Nat → String
  | none => "undefined"
  | some n => toString n

/-- `RelationExtractor.mergeRelationships`: deduplicate by
`(source, target, type)` string key keeping the strictly higher
confidence. -/
def mergeRelationships (relationships : List Relationship) :
    List Relationship :=
  jsMapValues (relationships.foldl (fun m r =>
    let key := optIdStr r.sourceEntityId ++ "-" ++
      optIdStr r.targetEntityId ++ "-" ++ String.mk r.type
    match jsMapGet m key with
    | none => jsMapSet m key r
    | some r0 =>
      if r0.confidence < r.confidence then jsMapSet m key r else m) [])

/-- `RelationExtractor.extract`: fewer than two entities yield `[]`;
otherwise the rule pass, the co-occurrence pass and the (fail-silent) LLM
pass are concatenated and deduplicated. -/
def extract (custom : List (Chars × List (List RItem)))
    (llmConfigured hasEndpoint : Bool) (outcome : RelLLMOutcome)
    (entities : List EntityExtractor.Entity) (text docId : Chars) :
    List Relationship :=
  if entities.length < 2 then []
  else
    let allRelationPatterns :=
      EntityExtractor.jsMapOfEntries (relationPatterns ++ custom)
    let ruleRelationships := extractByRules entities text allRelationPatterns docId
    let cooccurrenceRelationships := extractByCooccurrence entities text docId
    let llmRelationships :=
      if llmConfigured then
        match extractByLLM hasEndpoint outcome docId with
        | .ok rels => rels
        | .error _ => []
      else []
    mergeRelationships
      (ruleRelationships ++ cooccurrenceRelationships ++ llmRelationships)

end RelationExtractor

/-- Counterexample to C8: the guard of `RelationExtractor.extract` counts
*all* entities (`entities.length < 2`), not id-bearing ones.  With one
id-bearing entity `甲(id 1)` and one id-less entity `乙`, the input has
fewer than two id-bearing entities, yet the pattern `属于` produces a
`belong_to` relationship (whose target id is `undefined`), so the result
is not empty. -/
theorem c8_counterexample :
    (([{ id := some 1, name := "甲".toList, type := "t".toList,
         docId := "d".toList, startPos := 0, endPos := 1 },
       { id := none, name := "乙".toList, type := "t".toList,
         docId := "d".toList, startPos := 2, endPos := 3 }] :
        List EntityExtractor.Entity).filter
      (fun e => e.id.isSome)).length = 1 ∧
    RelationExtractor.extract [] false false (.response none)
      [{ id := some 1, name := "甲".toList, type := "t".toList,
         docId := "d".toList, startPos := 0, endPos := 1 },
       { id := none, name := "乙".toList, type := "t".toList,
         docId := "d".toList, startPos := 2, endPos := 3 }]
      "甲属于乙".toList "d".toList =
      [{ sourceEntityId := some 1, targetEntityId := none,
         type := "belong_to".toList, docId := "d".toList,
         confidence := 8/10, source := some "rule".toList,
         evidenceText := some "甲属于乙".toList }] ∧
    RelationExtractor.extract [] false false (.response none)
      [{ id := some 1, name := "甲".toList, type := "t".toList,
         docId := "d".toList, startPos := 0, endPos := 1 },
       { id := none, name := "乙".toList, type := "t".toList,
         docId := "d".toList, startPos := 2, endPos := 3 }]
      "甲属于乙".toList "d".toList ≠ [] := by
  refine ⟨by decide, by with_unfolding_all rfl, ?_⟩
  intro hc
  have h2 : RelationExtractor.extract [] false false (.response none)
      [{ id := some 1, name := "甲".toList, type := "t".toList,
         docId := "d".toList, startPos := 0, endPos := 1 },
       { id := none, name := "乙".toList, type := "t".toList,
         docId := "d".toList, startPos := 2, endPos := 3 }]
      "甲属于乙".toList "d".toList =
      [{ sourceEntityId := some 1, targetEntityId := none,
         type := "belong_to".toList, docId := "d".toList,
         confidence := 8/10, source := some "rule".toList,
         evidenceText := some "甲属于乙".toList }] := by
    with_unfolding_all rfl
  rw [hc] at h2
  cases h2

/-- C8 (amended): `RelationExtractor.extract` returns the empty sequence
whenever the input contains fewer than two entities — counting all
entities, with or without assigned ids; with two or more entities the
rule pass can emit relationships even when fewer than two entities bear
ids. -/
theorem c8_extract_requires_two (custom : List (Chars × List (List RItem)))
    (llmConfigured hasEndpoint : Bool)
    (outcome : RelationExtractor.RelLLMOutcome)
    (entities : List EntityExtractor.Entity) (text docId : Chars)
    (h : entities.length < 2) :
    RelationExtractor.extract custom llmConfigured hasEndpoint outcome
      entities text docId = [] := by
  rw [RelationExtractor.extract, if_pos h]

/-- Witness for C8 (amended): a single-entity input yields no
relationships. -/
theorem c8_extract_requires_two_witness :
    ([({ id := some 1, name := "甲".toList, type := "t".toList,
         docId := "d".toList, startPos := 0, endPos := 1 } :
       EntityExtractor.Entity)].length < 2) ∧
    RelationExtractor.extract [] false false (.response none)
      [{ id := some 1, name := "甲".toList, type := "t".toList,
         docId := "d".toList, startPos := 0, endPos := 1 }]
      "甲属于乙".toList "d".toList = [] :=
  ⟨by decide,
   c8_extract_requires_two [] false false (.response none) _ _ _ (by decide)⟩

/-! ## DatabaseManager (`src/data/db/DatabaseManager.ts`) — inverted index -/

namespace DatabaseManager

/-- A row of `index_entries` (the autoincrement `entry_id`, never read by
the code, is omitted): `(term_id, doc_id, frequency, positions)`. -/
structure IndexEntry where
  termId : Nat
  docId : Chars
  frequency : Nat
  positions : List Nat
deriving DecidableEq, Repr

/-- The inverted-index portion of the SQLite state: the `inverted_index`
term table (rows `(term_id, term)`, `term` UNIQUE, `term_id`
autoincrement) and the `index_entries` rows. -/
structure IndexDb where
  terms : List (Nat × Chars)
  nextTermId : Nat
  entries : List IndexEntry
deriving DecidableEq, Repr

/-- `INSERT INTO inverted_index (term) VALUES (?) ON CONFLICT(term) DO
NOTHING`. -/
def insertTerm (s : IndexDb) (term : Chars) : IndexDb :=
  if s.terms.any (fun p => p.2 = term) then s
  else { s with terms := s.terms ++ [(s.nextTermId, term)],
                nextTermId := s.nextTermId + 1 }

/-- `SELECT term_id FROM inverted_index WHERE term = ?`. -/
def getTermId (s : IndexDb) (term : Chars) : Option Nat :=
  (s.terms.find? (fun p => p.2 = term)).map (·.1)

/-- The `termPositions` map of `buildInvertedIndex`: token text to the
list of its `start` positions, in first-occurrence order (JS `Map`). -/
def termPositions (tokens : List Tokenizer.Token) : List (Chars × List Nat) :=
  tokens.foldl (fun m tk =>
    if jsMapHas m tk.text then
      m.map (fun p => if p.1 = tk.text then (p.1, p.2 ++ [tk.start]) else p)
    else m ++ [(tk.text, [tk.start])]) []

/-- One iteration of the `for (const [term, positions] of
termPositions.entries())` loop: insert the term, look its id up, insert
the index entry. -/
def indexStep (docId : Chars) (st : IndexDb) (p : Chars × List Nat) :
    IndexDb :=
  let st' := insertTerm st p.1
  match getTermId st' p.1 with
  | some tid =>
    { st' with entries := st'.entries ++
        [⟨tid, docId, p.2.length, p.2⟩] }
  | none => st'

/-- `DatabaseManager.buildInvertedIndex`: empty token lists return before
touching storage; otherwise the document's old index entries are deleted
and then one entry per distinct term is inserted. -/
def buildInvertedIndex (docId : Chars) (tokens : List Tokenizer.Token)
    (s : IndexDb) : IndexDb :=
  if tokens.length = 0 then s
  else
    let s1 : IndexDb :=
      { s with entries := s.entries.filter (fun en => !(en.docId = docId)) }
    (termPositions tokens).foldl (indexStep docId) s1

/-- The stored postings of a document. -/
def entriesFor (docId : Chars) (s : IndexDb) : List IndexEntry :=
  s.entries.filter (fun en => en.docId = docId)

end DatabaseManager

/-! ### C9/C10: inverted-index rebuild -/

/-- A successful term lookup is stable under extending the term table. -/
theorem getTermId_mono {s s2 : DatabaseManager.IndexDb} {term : Chars}
    {tid : Nat} (h : DatabaseManager.getTermId s term = some tid)
    (hterms : ∃ δ, s2.terms = s.terms ++ δ) :
    DatabaseManager.getTermId s2 term = some tid := by
  obtain ⟨δ, hδ⟩ := hterms
  rw [DatabaseManager.getTermId] at h ⊢
  rw [hδ]
  rcases hf : s.terms.find? (fun p => decide (p.2 = term)) with _ | q
  · rw [hf] at h; cases h
  · rw [hf] at h
    simp only [List.find?_append, hf, Option.or_some]
    exact h

/-- The fold of `buildInvertedIndex` only appends to the term table, and
each processed term receives an entry whose `term_id` is its lookup in
the *final* state; every processed term is present afterwards. -/
theorem indexFold_spec (docId : Chars) (tp : List (Chars × List Nat)) :
    ∀ st : DatabaseManager.IndexDb,
    (∃ δ, (tp.foldl (DatabaseManager.indexStep docId) st).terms =
        st.terms ++ δ) ∧
    (tp.foldl (DatabaseManager.indexStep docId) st).entries =
      st.entries ++ tp.map (fun p =>
        ⟨(DatabaseManager.getTermId
            (tp.foldl (DatabaseManager.indexStep docId) st) p.1).getD 0,
          docId, p.2.length, p.2⟩) ∧
    (∀ p ∈ tp, (DatabaseManager.getTermId
        (tp.foldl (DatabaseManager.indexStep docId) st) p.1).isSome) := by
  induction tp with
  | nil =>
    intro st
    exact ⟨⟨[], by simp⟩, by simp, by simp⟩
  | cons p tp ih =>
    intro st
    -- the term is present right after `insertTerm`, with some id
    have hpresent : ∃ tid, DatabaseManager.getTermId
        (DatabaseManager.insertTerm st p.1) p.1 = some tid := by
      rw [DatabaseManager.insertTerm]
      by_cases hin : st.terms.any (fun q => decide (q.2 = p.1))
      · rw [if_pos hin]
        obtain ⟨q, hq, hq'⟩ := List.any_eq_true.1 hin
        rcases hf : st.terms.find? (fun r => decide (r.2 = p.1)) with _ | r
        · rw [List.find?_eq_none] at hf
          exact absurd hq' (hf q hq)
        · refine ⟨r.1, ?_⟩
          rw [DatabaseManager.getTermId, hf]
          rfl
      · rw [if_neg hin]
        refine ⟨st.nextTermId, ?_⟩
        have hf : st.terms.find? (fun r => decide (r.2 = p.1)) = none := by
          rw [List.find?_eq_none]
          intro q hq hq'
          exact hin (List.any_eq_true.2 ⟨q, hq, hq'⟩)
        show ((st.terms ++ [(st.nextTermId, p.1)]).find?
          (fun r => decide (r.2 = p.1))).map (·.1) = some st.nextTermId
        rw [List.find?_append, hf]
        simp
    obtain ⟨tid, htid⟩ := hpresent
    have hstep : DatabaseManager.indexStep docId st p =
        { DatabaseManager.insertTerm st p.1 with
          entries := (DatabaseManager.insertTerm st p.1).entries ++
            [⟨tid, docId, p.2.length, p.2⟩] } := by
      rw [DatabaseManager.indexStep]
      simp only [htid]
    -- terms of the inserted state extend st's
    have hterms1 : ∃ δ1, (DatabaseManager.indexStep docId st p).terms =
        st.terms ++ δ1 := by
      rw [hstep]
      rw [DatabaseManager.insertTerm]
      by_cases hin : st.terms.any (fun q => decide (q.2 = p.1))
      · rw [if_pos hin]; exact ⟨[], by simp⟩
      · rw [if_neg hin]; exact ⟨[(st.nextTermId, p.1)], rfl⟩
    have hentries1 : (DatabaseManager.indexStep docId st p).entries =
        st.entries ++ [⟨tid, docId, p.2.length, p.2⟩] := by
      rw [hstep]
      have : (DatabaseManager.insertTerm st p.1).entries = st.entries := by
        rw [DatabaseManager.insertTerm]
        by_cases hin : st.terms.any (fun q => decide (q.2 = p.1))
        · rw [if_pos hin]
        · rw [if_neg hin]
      rw [this]
    obtain ⟨⟨δ, hδ⟩, hent, hpres⟩ := ih (DatabaseManager.indexStep docId st p)
    have htid1 : DatabaseManager.getTermId (DatabaseManager.indexStep docId st p) p.1 =
        some tid := by
      rw [hstep]
      exact htid
    -- the final lookup of p.1 agrees with the one used when inserting
    have htidfinal : DatabaseManager.getTermId
        (tp.foldl (DatabaseManager.indexStep docId)
          (DatabaseManager.indexStep docId st p)) p.1 = some tid :=
      getTermId_mono htid1 ⟨δ, hδ⟩
    rw [List.foldl_cons]
    obtain ⟨δ1, hδ1⟩ := hterms1
    refine ⟨⟨δ1 ++ δ, ?_⟩, ?_, ?_⟩
    · rw [hδ, hδ1, List.append_assoc]
    · rw [hent, hentries1]
      rw [List.map_cons, htidfinal]
      simp [List.append_assoc]
    · intro q hq
      rcases List.mem_cons.1 hq with rfl | hq'
      · rw [htidfinal]; rfl
      · exact hpres q hq'

/-- `getTermId` only reads the term table. -/
theorem getTermId_congr {s s2 : DatabaseManager.IndexDb}
    (h : s2.terms = s.terms) (term : Chars) :
    DatabaseManager.getTermId s2 term = DatabaseManager.getTermId s term := by
  rw [DatabaseManager.getTermId, DatabaseManager.getTermId, h]

/-- When every processed term is already present, the fold leaves the
term table and the autoincrement counter untouched. -/
theorem indexFold_terms_of_present (docId : Chars)
    (tp : List (Chars × List Nat)) :
    ∀ st : DatabaseManager.IndexDb,
    (∀ p ∈ tp, st.terms.any (fun q => decide (q.2 = p.1))) →
    (tp.foldl (DatabaseManager.indexStep docId) st).terms = st.terms ∧
    (tp.foldl (DatabaseManager.indexStep docId) st).nextTermId =
      st.nextTermId := by
  induction tp with
  | nil => intro st _; exact ⟨rfl, rfl⟩
  | cons p tp ih =>
    intro st hall
    have hin : st.terms.any (fun q => decide (q.2 = p.1)) :=
      hall p (by simp)
    have hins : DatabaseManager.insertTerm st p.1 = st := by
      rw [DatabaseManager.insertTerm, if_pos hin]
    have hterms : (DatabaseManager.indexStep docId st p).terms = st.terms := by
      rw [DatabaseManager.indexStep, hins]
      rcases DatabaseManager.getTermId st p.1 with _ | tid <;> rfl
    have hnext : (DatabaseManager.indexStep docId st p).nextTermId =
        st.nextTermId := by
      rw [DatabaseManager.indexStep, hins]
      rcases DatabaseManager.getTermId st p.1 with _ | tid <;> rfl
    rw [List.foldl_cons]
    obtain ⟨ht, hn⟩ := ih (DatabaseManager.indexStep docId st p)
      (by intro q hq; rw [hterms]; exact hall q (by simp [hq]))
    exact ⟨ht.trans hterms, hn.trans hnext⟩

/-- C10 (frame effect): `buildInvertedIndex(docId, [])` performs no
storage change at all — in particular the document's previously stored
index entries are *not* purged, because the delete-then-insert rebuild is
behind the `tokens.length === 0` early return. -/
theorem c10_empty_tokens_no_change (docId : Chars)
    (s : DatabaseManager.IndexDb) :
    DatabaseManager.buildInvertedIndex docId [] s = s := rfl

/-- The delete phase of the rebuild:
`DELETE FROM index_entries WHERE doc_id = ?`. -/
def delDoc (docId : Chars) (s : DatabaseManager.IndexDb) :
    DatabaseManager.IndexDb :=
  { s with entries := s.entries.filter (fun en => !(en.docId = docId)) }

/-- On a non-empty token list, `buildInvertedIndex` is the insert fold
after the delete phase. -/
theorem buildInvertedIndex_eq (docId : Chars)
    (tokens : List Tokenizer.Token) (st : DatabaseManager.IndexDb)
    (hlen : ¬ (tokens.length = 0)) :
    DatabaseManager.buildInvertedIndex docId tokens st =
      (DatabaseManager.termPositions tokens).foldl
        (DatabaseManager.indexStep docId) (delDoc docId st) := by
  rw [DatabaseManager.buildInvertedIndex, if_neg hlen]
  rfl

/-- C9: re-running `buildInvertedIndex` with the same non-empty token
list is idempotent — the whole stored state is unchanged, and in
particular the postings for `docId` after the second call equal those
after the first (the second call purges exactly the records the first
call inserted and re-inserts them with identical
`(term, docId, frequency, positions)` content, without duplication). -/
theorem c9_reindex_idempotent (docId : Chars)
    (tokens : List Tokenizer.Token) (s : DatabaseManager.IndexDb)
    (h : tokens ≠ []) :
    DatabaseManager.buildInvertedIndex docId tokens
      (DatabaseManager.buildInvertedIndex docId tokens s) =
      DatabaseManager.buildInvertedIndex docId tokens s ∧
    DatabaseManager.entriesFor docId
      (DatabaseManager.buildInvertedIndex docId tokens
        (DatabaseManager.buildInvertedIndex docId tokens s)) =
      DatabaseManager.entriesFor docId
        (DatabaseManager.buildInvertedIndex docId tokens s) := by
  have hlen : ¬ (tokens.length = 0) := by
    cases tokens with
    | nil => exact absurd rfl h
    | cons tk r => simp
  set tp := DatabaseManager.termPositions tokens with htp
  set s1 := DatabaseManager.buildInvertedIndex docId tokens s with hs1
  obtain ⟨hδ1, hent1, hpres1⟩ := indexFold_spec docId tp (delDoc docId s)
  rw [← buildInvertedIndex_eq docId tokens s hlen, ← hs1]
    at hδ1 hent1 hpres1
  -- deleting docId's rows from s1 recovers the pre-insert state
  have hdel : delDoc docId s1 =
      { s1 with entries := (delDoc docId s).entries } := by
    rw [delDoc, hent1, List.filter_append]
    have h1 : (delDoc docId s).entries.filter
        (fun en => !(en.docId = docId)) = (delDoc docId s).entries := by
      rw [List.filter_eq_self]
      intro a ha
      exact (List.mem_filter.1 ha).2
    have h2 : (tp.map (fun p =>
        (⟨(DatabaseManager.getTermId s1 p.1).getD 0, docId, p.2.length,
          p.2⟩ : DatabaseManager.IndexEntry))).filter
        (fun en => !(en.docId = docId)) = [] := by
      rw [List.filter_eq_nil_iff]
      intro a ha
      obtain ⟨q, _, rfl⟩ := List.mem_map.1 ha
      simp
    rw [h1, h2, List.append_nil]
  -- the second run starts with every term already present
  have hpres2 : ∀ p ∈ tp, (delDoc docId s1).terms.any
      (fun q => decide (q.2 = p.1)) := by
    intro p hp
    have hsome := hpres1 p hp
    rw [DatabaseManager.getTermId] at hsome
    rcases hf : s1.terms.find? (fun r => decide (r.2 = p.1)) with _ | q
    · rw [hf] at hsome; cases hsome
    · have hqmem : q ∈ s1.terms := List.mem_of_find?_eq_some hf
      have hqpred := List.find?_some hf
      exact List.any_eq_true.2 ⟨q, hqmem, hqpred⟩
  obtain ⟨hterms2, hnext2⟩ :=
    indexFold_terms_of_present docId tp (delDoc docId s1) hpres2
  obtain ⟨hδ2, hent2, _⟩ := indexFold_spec docId tp (delDoc docId s1)
  have hmain : DatabaseManager.buildInvertedIndex docId tokens s1 = s1 := by
    rw [buildInvertedIndex_eq docId tokens s1 hlen, ← htp]
    have htid2 : ∀ term, DatabaseManager.getTermId
        (tp.foldl (DatabaseManager.indexStep docId) (delDoc docId s1)) term =
        DatabaseManager.getTermId s1 term := fun term =>
      getTermId_congr (by rw [hterms2]; rfl) term
    have hentries : (tp.foldl (DatabaseManager.indexStep docId)
        (delDoc docId s1)).entries = s1.entries := by
      rw [hent2]
      have hrecs : tp.map (fun p =>
          (⟨(DatabaseManager.getTermId
              (tp.foldl (DatabaseManager.indexStep docId)
                (delDoc docId s1)) p.1).getD 0,
            docId, p.2.length, p.2⟩ : DatabaseManager.IndexEntry)) =
          tp.map (fun p =>
          (⟨(DatabaseManager.getTermId s1 p.1).getD 0, docId, p.2.length,
            p.2⟩ : DatabaseManager.IndexEntry)) := by
        apply List.map_congr_left
        intro p _
        rw [htid2]
      rw [hrecs, hdel]
      exact hent1.symm
    have hterms2' : (tp.foldl (DatabaseManager.indexStep docId)
        (delDoc docId s1)).terms = s1.terms := by
      rw [hterms2]; rfl
    have hnext2' : (tp.foldl (DatabaseManager.indexStep docId)
        (delDoc docId s1)).nextTermId = s1.nextTermId := by
      rw [hnext2]; rfl
    calc tp.foldl (DatabaseManager.indexStep docId) (delDoc docId s1) =
        ⟨(tp.foldl (DatabaseManager.indexStep docId) (delDoc docId s1)).terms,
         (tp.foldl (DatabaseManager.indexStep docId) (delDoc docId s1)).nextTermId,
         (tp.foldl (DatabaseManager.indexStep docId) (delDoc docId s1)).entries⟩ :=
        rfl
      _ = ⟨s1.terms, s1.nextTermId, s1.entries⟩ := by
          rw [hterms2', hnext2', hentries]
      _ = s1 := rfl
  exact ⟨hmain, by rw [hmain]⟩

/-- Witness for C9 at a concrete input: one token `"ab"` at position 0. -/
theorem c9_reindex_idempotent_witness :
    ([({ text := "ab".toList, start := 0, stop := 2,
         type := "english".toList } : Tokenizer.Token)] ≠
      ([] : List Tokenizer.Token)) ∧
    DatabaseManager.buildInvertedIndex "d".toList
      [{ text := "ab".toList, start := 0, stop := 2,
         type := "english".toList }]
      (DatabaseManager.buildInvertedIndex "d".toList
        [{ text := "ab".toList, start := 0, stop := 2,
           type := "english".toList }] ⟨[], 1, []⟩) =
      DatabaseManager.buildInvertedIndex "d".toList
        [{ text := "ab".toList, start := 0, stop := 2,
           type := "english".toList }] ⟨[], 1, []⟩ :=
  ⟨by decide,
   (c9_reindex_idempotent "d".toList
     [{ text := "ab".toList, start := 0, stop := 2,
        type := "english".toList }] ⟨[], 1, []⟩ (by decide)).1⟩

/-! ## EntityFusion (`src/data/fusion/EntityFusion.ts`) -/

namespace EntityFusion

/-- An entity as the fusion module sees it (ids are strings here;
`aliases`, `contextWords`, `normalizedName` may be absent). -/
structure FEntity where
  id : Option String := none
  name : Chars
  type : Chars := []
  aliases : Option (List Chars) := none
  contextWords : Option (List Chars) := none
  normalizedName : Option Chars := none
  occurrences : Option Nat := none
deriving DecidableEq, Repr, Inhabited

/-- JavaScript truthiness of an optional string (absent and `""` are
falsy). -/
def strTruthy : Option Chars → Bool
  | none => false
  | some s => !s.isEmpty

/-- The substitution cost of `calculateStringSimilarity`:
`str1[i-1].toLowerCase() === str2[j-1].toLowerCase() ? 0 : 1`
(generalised over the character cost so the case-insensitive source cost
and the plain cost on pre-lowercased strings share one recursion). -/
def levGen (cost : Char → Char → Nat) : Chars → Chars → Nat
  | [], y => y.length
  | a :: as, y =>
    let levAs := levGen cost as
    let rec go : Chars → Nat
      | [] => as.length + 1
      | c :: cs => min (levAs (c :: cs) + 1)
          (min (go cs + 1) (levAs cs + cost a c))
    go y

/-- The case-insensitive character cost of the source. -/
def levCost (a b : Char) : Nat := if a.toLower = b.toLower then 0 else 1

/-- The Levenshtein distance computed by the dp matrix of
`calculateStringSimilarity` (`dp[i][j] = min(del, ins, subst)` with
`dp[i][0] = i`, `dp[0][j] = j`), in recursive form. -/
def levenshtein : Chars → Chars → Nat := levGen levCost

end EntityFusion

/-! ### Levenshtein equations and symmetry -/

theorem levGen_nil_left (cost : Char → Char → Nat) (y : Chars) :
    EntityFusion.levGen cost [] y = y.length := rfl

theorem levGen_cons_nil (cost : Char → Char → Nat) (a : Char) (as : Chars) :
    EntityFusion.levGen cost (a :: as) [] = as.length + 1 := rfl

theorem levGen_cons_cons (cost : Char → Char → Nat) (a : Char) (as : Chars)
    (c : Char) (cs : Chars) :
    EntityFusion.levGen cost (a :: as) (c :: cs) =
      min (EntityFusion.levGen cost as (c :: cs) + 1)
        (min (EntityFusion.levGen cost (a :: as) cs + 1)
          (EntityFusion.levGen cost as cs + cost a c)) := rfl

/-- Symmetry of the generic Levenshtein distance for a symmetric cost. -/
theorem levGen_comm (cost : Char → Char → Nat)
    (hc : ∀ a b, cost a b = cost b a) :
    ∀ (x y : Chars), EntityFusion.levGen cost x y =
      EntityFusion.levGen cost y x := by
  intro x
  induction x with
  | nil =>
    intro y
    cases y with
    | nil => rfl
    | cons c cs =>
      rw [levGen_nil_left, levGen_cons_nil]
      simp
  | cons a as ihx =>
    intro y
    induction y with
    | nil =>
      rw [levGen_cons_nil, levGen_nil_left]
      simp
    | cons c cs ihy =>
      rw [levGen_cons_cons, levGen_cons_cons]
      rw [ihx (c :: cs), ihy, ihx cs, hc a c]
      rw [min_left_comm]

/-- The source's case-insensitive distance equals the plain distance on
pre-lowercased strings. -/
theorem levenshtein_eq_lower :
    ∀ (x y : Chars), EntityFusion.levenshtein x y =
      EntityFusion.levGen (fun a b => if a = b then 0 else 1)
        (x.map Char.toLower) (y.map Char.toLower) := by
  intro x
  induction x with
  | nil =>
    intro y
    rw [EntityFusion.levenshtein, levGen_nil_left]
    simp [levGen_nil_left]
  | cons a as ihx =>
    intro y
    induction y with
    | nil =>
      rw [EntityFusion.levenshtein] at *
      rw [levGen_cons_nil]
      simp [levGen_cons_nil]
    | cons c cs ihy =>
      rw [EntityFusion.levenshtein] at *
      rw [levGen_cons_cons, List.map_cons, List.map_cons, levGen_cons_cons]
      rw [← List.map_cons Char.toLower c cs, ← ihx (c :: cs), ihy,
        ← ihx cs]
      rfl

namespace EntityFusion

/-- `EntityFusion.calculateStringSimilarity`: 0 on an empty side; 0 when
the length gap exceeds half the longer length; otherwise
`Math.max(0, 1 - distance / maxLen)`. -/
def calculateStringSimilarity (str1 str2 : Chars) : ℚ :=
  let len1 := str1.length
  let len2 := str2.length
  if len1 = 0 ∨ len2 = 0 then 0
  else if |(len1 : ℚ) - (len2 : ℚ)| / (max len1 len2 : Nat) > 1/2 then 0
  else
    max 0 (1 - (levenshtein str1 str2 : ℚ) / (max len1 len2 : Nat))

/-- `EntityFusion.calculateFuzzyMatchSimilarity`: the name/name
similarity, maximised with the alias/name similarities of both sides. -/
def calculateFuzzyMatchSimilarity (e1 e2 : FEntity) : ℚ :=
  let nameSim := calculateStringSimilarity e1.name e2.name
  let m1 : ℚ := match e1.aliases with
    | some al => al.foldl (fun acc a =>
        max acc (calculateStringSimilarity a e2.name)) 0
    | none => 0
  let m2 : ℚ := match e2.aliases with
    | some al => al.foldl (fun acc b =>
        max acc (calculateStringSimilarity e1.name b)) m1
    | none => m1
  max nameSim m2

/-- `EntityFusion.calculateSemanticSimilarity` degrades to the fuzzy
similarity. -/
def calculateSemanticSimilarity (e1 e2 : FEntity) : ℚ :=
  calculateFuzzyMatchSimilarity e1 e2

/-- `EntityFusion.calculateExactMatchSimilarity`: 1.0 on equal names, an
alias of either side equal to the other's name, or equal truthy
normalized names; else 0.0. -/
def calculateExactMatchSimilarity (e1 e2 : FEntity) : ℚ :=
  if e1.name = e2.name then 1
  else if (e1.aliases.getD []).contains e2.name then 1
  else if (e2.aliases.getD []).contains e1.name then 1
  else if strTruthy e1.normalizedName ∧ strTruthy e2.normalizedName ∧
      e1.normalizedName = e2.normalizedName then 1
  else 0

/-- `EntityFusion.calculateContextSimilarity`: Jaccard similarity of the
context-word sets; 0 when either is absent or empty. -/
def calculateContextSimilarity (e1 e2 : FEntity) : ℚ :=
  match e1.contextWords, e2.contextWords with
  | some w1, some w2 =>
    if w1.length = 0 ∨ w2.length = 0 then 0
    else
      let set1 := w1.dedup
      let set2 := w2.dedup
      let intersectionSize := (set1.filter (fun w => w ∈ set2)).length
      let unionSize := set1.length + set2.length - intersectionSize
      if unionSize > 0 then (intersectionSize : ℚ) / (unionSize : ℚ) else 0
  | _, _ => 0

/-- The fusion strategies. -/
inductive FusionStrategy where
  | exact_match
  | fuzzy_match
  | semantic_match

/-- The fusion configuration. -/
structure FusionConfig where
  strategy : FusionStrategy
  threshold : ℚ
  considerType : Bool
  considerContext : Bool

/-- The off-diagonal cell computation of `buildSimilarityMatrix`:
strategy similarity, halved on a type mismatch when `considerType`,
averaged with the context similarity when `considerContext`. -/
def pairSimilarity (cfg : FusionConfig) (e1 e2 : FEntity) : ℚ :=
  let base : ℚ := match cfg.strategy with
    | .exact_match => calculateExactMatchSimilarity e1 e2
    | .fuzzy_match => calculateFuzzyMatchSimilarity e1 e2
    | .semantic_match => calculateSemanticSimilarity e1 e2
  let typed : ℚ :=
    if cfg.considerType ∧ ¬ e1.type.isEmpty ∧ ¬ e2.type.isEmpty ∧
        e1.type ≠ e2.type then base * (1/2)
    else base
  if cfg.considerContext then (typed + calculateContextSimilarity e1 e2) / 2
  else typed

/-- `EntityFusion.buildSimilarityMatrix` as the function the filled array
computes: the loop runs over `i ≤ j`, writes 1.0 on the diagonal and
mirrors each off-diagonal cell, so entry `(i, j)` with `i < j` and entry
`(j, i)` both hold the similarity computed on `(entities[i],
entities[j])` in that argument order. -/
def buildSimilarityMatrix (entities : List FEntity) (cfg : FusionConfig)
    (i j : Nat) : ℚ :=
  if i = j then 1
  else if i < j then
    pairSimilarity cfg (entities.getD i default) (entities.getD j default)
  else
    pairSimilarity cfg (entities.getD j default) (entities.getD i default)

end EntityFusion

/-! ### C7: symmetry of the fusion similarities -/

theorem levCost_comm (a b : Char) :
    EntityFusion.levCost a b = EntityFusion.levCost b a := by
  simp [EntityFusion.levCost, eq_comm]

theorem levenshtein_comm (x y : Chars) :
    EntityFusion.levenshtein x y = EntityFusion.levenshtein y x :=
  levGen_comm EntityFusion.levCost levCost_comm x y

theorem calculateStringSimilarity_comm (s1 s2 : Chars) :
    EntityFusion.calculateStringSimilarity s1 s2 =
      EntityFusion.calculateStringSimilarity s2 s1 := by
  simp only [EntityFusion.calculateStringSimilarity]
  by_cases h0 : s1.length = 0 ∨ s2.length = 0
  · rw [if_pos h0,
      if_pos (show s2.length = 0 ∨ s1.length = 0 from h0.symm)]
  · rw [if_neg h0,
      if_neg (show ¬ (s2.length = 0 ∨ s1.length = 0) from
        fun hc => h0 hc.symm)]
    rw [show |(s1.length : ℚ) - (s2.length : ℚ)| =
        |(s2.length : ℚ) - (s1.length : ℚ)| from abs_sub_comm _ _,
      show max s1.length s2.length = max s2.length s1.length from max_comm _ _,
      levenshtein_comm s1 s2]

theorem le_foldl_max (l : List ℚ) : ∀ a : ℚ, a ≤ l.foldl max a := by
  induction l with
  | nil => intro a; exact le_refl a
  | cons x r ih =>
    intro a
    calc a ≤ max a x := le_max_left a x
    _ ≤ r.foldl max (max a x) := ih (max a x)
    _ = (x :: r).foldl max a := rfl

theorem foldl_max_init (l : List ℚ) : ∀ a b : ℚ,
    l.foldl max (max a b) = max a (l.foldl max b) := by
  induction l with
  | nil => intro a b; rfl
  | cons x r ih =>
    intro a b
    show r.foldl max (max (max a b) x) = max a (r.foldl max (max b x))
    rw [max_assoc, ih a (max b x)]

theorem foldl_max_append_comm (A B : List ℚ) :
    (A ++ B).foldl max 0 = (B ++ A).foldl max 0 := by
  rw [List.foldl_append, List.foldl_append]
  have hA : (0 : ℚ) ≤ A.foldl max 0 := le_foldl_max A 0
  have hB : (0 : ℚ) ≤ B.foldl max 0 := le_foldl_max B 0
  calc B.foldl max (A.foldl max 0) =
      B.foldl max (max (A.foldl max 0) 0) := by rw [max_eq_left hA]
    _ = max (A.foldl max 0) (B.foldl max 0) := foldl_max_init B _ 0
    _ = max (B.foldl max 0) (A.foldl max 0) := max_comm _ _
    _ = A.foldl max (max (B.foldl max 0) 0) := (foldl_max_init A _ 0).symm
    _ = A.foldl max (B.foldl max 0) := by rw [max_eq_left hB]

/-- The two alias folds of `calculateFuzzyMatchSimilarity`, as one
`foldl max` over the concatenated similarity lists. -/
theorem fuzzy_fold_eq (f1 f2 : Chars → ℚ) (al1 al2 : List Chars) :
    al2.foldl (fun acc b => max acc (f2 b))
      (al1.foldl (fun acc a => max acc (f1 a)) 0) =
    (al1.map f1 ++ al2.map f2).foldl max 0 := by
  rw [List.foldl_append, List.foldl_map f1 max al1 0,
    List.foldl_map f2 max al2 (al1.foldl (fun x y => max x (f1 y)) 0)]

theorem calculateFuzzyMatchSimilarity_comm (e1 e2 : EntityFusion.FEntity) :
    EntityFusion.calculateFuzzyMatchSimilarity e1 e2 =
      EntityFusion.calculateFuzzyMatchSimilarity e2 e1 := by
  simp only [EntityFusion.calculateFuzzyMatchSimilarity]
  rw [calculateStringSimilarity_comm e1.name e2.name]
  rcases e1.aliases with _ | al1 <;> rcases e2.aliases with _ | al2
  · rfl
  · simp only []
    congr 1
    rw [← List.foldl_map (fun b => EntityFusion.calculateStringSimilarity
        e1.name b) max al2 0,
      ← List.foldl_map (fun b => EntityFusion.calculateStringSimilarity
        b e1.name) max al2 0]
    congr 1
    apply List.map_congr_left
    intro b _
    exact calculateStringSimilarity_comm e1.name b
  · simp only []
    congr 1
    rw [← List.foldl_map (fun a => EntityFusion.calculateStringSimilarity
        a e2.name) max al1 0,
      ← List.foldl_map (fun a => EntityFusion.calculateStringSimilarity
        e2.name a) max al1 0]
    congr 1
    apply List.map_congr_left
    intro a _
    exact calculateStringSimilarity_comm a e2.name
  · simp only []
    congr 1
    rw [fuzzy_fold_eq (fun a => EntityFusion.calculateStringSimilarity
        a e2.name) (fun b => EntityFusion.calculateStringSimilarity
        e1.name b) al1 al2,
      fuzzy_fold_eq (fun b => EntityFusion.calculateStringSimilarity
        b e1.name) (fun a => EntityFusion.calculateStringSimilarity
        e2.name a) al2 al1]
    rw [show al2.map (fun b => EntityFusion.calculateStringSimilarity
        b e1.name) = al2.map (fun b => EntityFusion.calculateStringSimilarity
        e1.name b) from List.map_congr_left
        (fun b _ => calculateStringSimilarity_comm b e1.name),
      show al1.map (fun a => EntityFusion.calculateStringSimilarity
        e2.name a) = al1.map (fun a => EntityFusion.calculateStringSimilarity
        a e2.name) from List.map_congr_left
        (fun a _ => calculateStringSimilarity_comm e2.name a)]
    exact (foldl_max_append_comm _ _).symm

theorem calculateExactMatchSimilarity_comm (e1 e2 : EntityFusion.FEntity) :
    EntityFusion.calculateExactMatchSimilarity e1 e2 =
      EntityFusion.calculateExactMatchSimilarity e2 e1 := by
  rw [EntityFusion.calculateExactMatchSimilarity,
    EntityFusion.calculateExactMatchSimilarity]
  by_cases h1 : e1.name = e2.name
  · rw [if_pos h1, if_pos (show e2.name = e1.name from h1.symm)]
  · rw [if_neg h1, if_neg (show ¬ e2.name = e1.name from
      fun hc => h1 hc.symm)]
    by_cases h2 : ((e1.aliases.getD []).contains e2.name) = true
    · by_cases h3 : ((e2.aliases.getD []).contains e1.name) = true
      · rw [if_pos h2, if_pos h3]
      · rw [if_pos h2, if_neg h3, if_pos h2]
    · by_cases h3 : ((e2.aliases.getD []).contains e1.name) = true
      · rw [if_neg h2, if_pos h3, if_pos h3]
      · rw [if_neg h2, if_neg h3, if_neg h3, if_neg h2]
        have hiff : (EntityFusion.strTruthy e1.normalizedName = true ∧
            EntityFusion.strTruthy e2.normalizedName = true ∧
            e1.normalizedName = e2.normalizedName) ↔
            (EntityFusion.strTruthy e2.normalizedName = true ∧
            EntityFusion.strTruthy e1.normalizedName = true ∧
            e2.normalizedName = e1.normalizedName) := by
          constructor <;> rintro ⟨a, b, c⟩ <;> exact ⟨b, a, c.symm⟩
        simp only [propext hiff]

theorem inter_length_comm (l1 l2 : List Chars) :
    (l1.dedup.filter (fun w => decide (w ∈ l2.dedup))).length =
      (l2.dedup.filter (fun w => decide (w ∈ l1.dedup))).length := by
  have key : ∀ (a b : List Chars),
      (a.dedup.filter (fun w => decide (w ∈ b.dedup))).length =
      (a.toFinset ∩ b.toFinset).card := by
    intro a b
    have hnd : (a.dedup.filter (fun w => decide (w ∈ b.dedup))).Nodup :=
      a.nodup_dedup.filter _
    rw [← List.toFinset_card_of_nodup hnd]
    congr 1
    ext x
    simp [List.mem_toFinset, List.mem_filter, List.mem_dedup,
      Finset.mem_inter]
  rw [key l1 l2, key l2 l1, Finset.inter_comm]

theorem calculateContextSimilarity_comm (e1 e2 : EntityFusion.FEntity) :
    EntityFusion.calculateContextSimilarity e1 e2 =
      EntityFusion.calculateContextSimilarity e2 e1 := by
  rw [EntityFusion.calculateContextSimilarity,
    EntityFusion.calculateContextSimilarity]
  rcases e1.contextWords with _ | w1 <;> rcases e2.contextWords with _ | w2 <;>
    try rfl
  simp only []
  by_cases h0 : w1.length = 0 ∨ w2.length = 0
  · rw [if_pos h0, if_pos (show w2.length = 0 ∨ w1.length = 0 from h0.symm)]
  · rw [if_neg h0, if_neg (show ¬ (w2.length = 0 ∨ w1.length = 0) from
      fun hc => h0 hc.symm)]
    rw [inter_length_comm w1 w2, Nat.add_comm w1.dedup.length w2.dedup.length]

theorem pairSimilarity_comm (cfg : EntityFusion.FusionConfig)
    (e1 e2 : EntityFusion.FEntity) :
    EntityFusion.pairSimilarity cfg e1 e2 =
      EntityFusion.pairSimilarity cfg e2 e1 := by
  obtain ⟨strat, th, ct, cc⟩ := cfg
  have hcond : (ct = true ∧ ¬ e1.type.isEmpty = true ∧
      ¬ e2.type.isEmpty = true ∧ e1.type ≠ e2.type) ↔
      (ct = true ∧ ¬ e2.type.isEmpty = true ∧
      ¬ e1.type.isEmpty = true ∧ e2.type ≠ e1.type) := by
    constructor <;> rintro ⟨a, b, c, d⟩ <;>
      exact ⟨a, c, b, fun hc => d hc.symm⟩
  have hctx := calculateContextSimilarity_comm e1 e2
  cases strat with
  | exact_match =>
    simp only [EntityFusion.pairSimilarity]
    rw [calculateExactMatchSimilarity_comm e1 e2, hctx]
    simp only [propext hcond]
  | fuzzy_match =>
    simp only [EntityFusion.pairSimilarity]
    rw [calculateFuzzyMatchSimilarity_comm e1 e2, hctx]
    simp only [propext hcond]
  | semantic_match =>
    simp only [EntityFusion.pairSimilarity,
      EntityFusion.calculateSemanticSimilarity]
    rw [calculateFuzzyMatchSimilarity_comm e1 e2, hctx]
    simp only [propext hcond]

/-- C7: for every fusion strategy and configuration the pairwise
similarity (including the type and context adjustments) is symmetric, and
the similarity matrix built by `buildSimilarityMatrix` is symmetric with
diagonal 1.0. -/
theorem c7_similarity_symmetric :
    (∀ (cfg : EntityFusion.FusionConfig) (e1 e2 : EntityFusion.FEntity),
      EntityFusion.pairSimilarity cfg e1 e2 =
        EntityFusion.pairSimilarity cfg e2 e1) ∧
    (∀ (entities : List EntityFusion.FEntity)
      (cfg : EntityFusion.FusionConfig) (i j : Nat),
      EntityFusion.buildSimilarityMatrix entities cfg i j =
        EntityFusion.buildSimilarityMatrix entities cfg j i) ∧
    (∀ (entities : List EntityFusion.FEntity)
      (cfg : EntityFusion.FusionConfig) (i : Nat),
      EntityFusion.buildSimilarityMatrix entities cfg i i = 1) := by
  refine ⟨pairSimilarity_comm, ?_, ?_⟩
  · intro entities cfg i j
    rcases lt_trichotomy i j with h | h | h
    · rw [EntityFusion.buildSimilarityMatrix,
        EntityFusion.buildSimilarityMatrix,
        if_neg (show ¬ i = j from ne_of_lt h), if_pos h,
        if_neg (show ¬ j = i from (ne_of_lt h).symm),
        if_neg (show ¬ j < i from not_lt_of_gt h)]
    · subst h; rfl
    · rw [EntityFusion.buildSimilarityMatrix,
        EntityFusion.buildSimilarityMatrix,
        if_neg (show ¬ i = j from (ne_of_lt h).symm),
        if_neg (show ¬ i < j from not_lt_of_gt h),
        if_neg (show ¬ j = i from ne_of_lt h), if_pos h]
  · intro entities cfg i
    rw [EntityFusion.buildSimilarityMatrix, if_pos rfl]

/-! ### C6: the fuzzy-match similarity formula -/

namespace EntityFusion

/-- Modelled from the spec (C6 formula): the claimed pair similarity
`1 - Levenshtein(a,b) / max(len(a), len(b))`, case-insensitive (the plain
distance on lowercased strings), with no further guard. -/
def specPairNoCutoff (a b : Chars) : ℚ :=
  1 - (levGen (fun x y => if x = y then 0 else 1)
        (a.map Char.toLower) (b.map Char.toLower) : ℚ) /
      (max a.length b.length : Nat)

/-- The (name × alias) pair list of the claim: the two names, each alias
of one entity against the other entity's name. -/
def fuzzyPairs (e1 e2 : FEntity) : List (Chars × Chars) :=
  (e1.name, e2.name) ::
    ((e1.aliases.getD []).map (fun a => (a, e2.name)) ++
     (e2.aliases.getD []).map (fun b => (e1.name, b)))

/-- Modelled from the spec (C6, as claimed): the maximum of the
unguarded formula over all pairs. -/
def specFuzzyMatchClaim (e1 e2 : FEntity) : ℚ :=
  ((fuzzyPairs e1 e2).map (fun q => specPairNoCutoff q.1 q.2)).foldl max 0

/-- The amended pair similarity: 0 when either string is empty or when
the length difference exceeds half the longer length; otherwise the
claimed formula (clamped at 0, which is redundant). -/
def specPairAmended (a b : Chars) : ℚ :=
  if a.length = 0 ∨ b.length = 0 then 0
  else if |(a.length : ℚ) - (b.length : ℚ)| / (max a.length b.length : Nat) >
      1/2 then 0
  else max 0 (specPairNoCutoff a b)

/-- The amended fuzzy similarity: the maximum of the amended pair
similarity over all pairs. -/
def specFuzzyMatchAmended (e1 e2 : FEntity) : ℚ :=
  ((fuzzyPairs e1 e2).map (fun q => specPairAmended q.1 q.2)).foldl max 0

end EntityFusion

theorem strSim_eq_specPair (a b : Chars) :
    EntityFusion.calculateStringSimilarity a b =
      EntityFusion.specPairAmended a b := by
  simp only [EntityFusion.calculateStringSimilarity,
    EntityFusion.specPairAmended, EntityFusion.specPairNoCutoff]
  rw [← levenshtein_eq_lower a b]

/-- Counterexample to C6: for names `"a"` and `"abc"` (no aliases) the
source similarity is 0 — `calculateStringSimilarity` short-circuits when
the length difference exceeds half the longer length — while the claimed
formula gives `1 - 2/3 = 1/3`. -/
theorem c6_counterexample :
    EntityFusion.calculateFuzzyMatchSimilarity
      { name := "a".toList } { name := "abc".toList } = 0 ∧
    EntityFusion.specFuzzyMatchClaim
      { name := "a".toList } { name := "abc".toList } = 1/3 ∧
    (0 : ℚ) ≠ 1/3 := by
  refine ⟨by with_unfolding_all rfl, by with_unfolding_all rfl, by norm_num⟩

/-- C6 (amended): the fuzzy-match similarity equals the case-insensitive
normalized edit-distance formula taken as the maximum over the name/name
pair and all (name × alias) pairs across both entities, *except* that a
pair contributes 0 when either string is empty or when the two lengths
differ by more than half the longer length (the early exits of
`calculateStringSimilarity`). -/
theorem c6_fuzzy_similarity_spec (e1 e2 : EntityFusion.FEntity) :
    EntityFusion.calculateFuzzyMatchSimilarity e1 e2 =
      EntityFusion.specFuzzyMatchAmended e1 e2 := by
  have hsrc : EntityFusion.calculateFuzzyMatchSimilarity e1 e2 =
      max (EntityFusion.calculateStringSimilarity e1.name e2.name)
        (((e1.aliases.getD []).map (fun a =>
            EntityFusion.calculateStringSimilarity a e2.name) ++
          (e2.aliases.getD []).map (fun b =>
            EntityFusion.calculateStringSimilarity e1.name b)).foldl
          max 0) := by
    simp only [EntityFusion.calculateFuzzyMatchSimilarity]
    rcases e1.aliases with _ | al1 <;> rcases e2.aliases with _ | al2 <;>
      simp only [Option.getD_some, Option.getD_none, List.map_nil,
        List.nil_append, List.append_nil, List.foldl_nil]
    · rw [List.foldl_map]
    · rw [List.foldl_map]
    · rw [fuzzy_fold_eq]
  rw [hsrc, EntityFusion.specFuzzyMatchAmended, EntityFusion.fuzzyPairs,
    List.map_cons, List.foldl_cons, List.map_append, List.map_map,
    List.map_map]
  rw [show ((fun q : Chars × Chars => EntityFusion.specPairAmended q.1 q.2) ∘
      (fun a => (a, e2.name))) = fun a =>
      EntityFusion.specPairAmended a e2.name from rfl,
    show ((fun q : Chars × Chars => EntityFusion.specPairAmended q.1 q.2) ∘
      (fun b => (e1.name, b))) = fun b =>
      EntityFusion.specPairAmended e1.name b from rfl]
  rw [show (e1.aliases.getD []).map (fun a =>
      EntityFusion.specPairAmended a e2.name) =
      (e1.aliases.getD []).map (fun a =>
      EntityFusion.calculateStringSimilarity a e2.name) from
      List.map_congr_left (fun a _ => (strSim_eq_specPair a e2.name).symm),
    show (e2.aliases.getD []).map (fun b =>
      EntityFusion.specPairAmended e1.name b) =
      (e2.aliases.getD []).map (fun b =>
      EntityFusion.calculateStringSimilarity e1.name b) from
      List.map_congr_left (fun b _ => (strSim_eq_specPair e1.name b).symm),
    ← strSim_eq_specPair e1.name e2.name]
  rw [show max (0 : ℚ) (EntityFusion.calculateStringSimilarity e1.name
      e2.name) = max (EntityFusion.calculateStringSimilarity e1.name
      e2.name) 0 from max_comm _ _,
    foldl_max_init]

/-! ## SearchAPI: entity graph and path search (src/unnamed/part_006)

The storage accessors `DatabaseManager.getEntity` and the filtered
`DatabaseManager.getRelationships` that `SearchAPI` calls are not present
in `src/`; they are modelled from the spec, which describes them as plain
id/filters lookups over the stored entities and relationships with
not-found yielding null/empty.  Everything else in this section is
translated from `SearchAPI` itself. -/

namespace SearchAPI

/-- A stored entity as `SearchAPI` observes it: its id and payload. -/
structure SEntity where
  id : Chars
  name : Chars := []
deriving DecidableEq, Repr

/-- A stored relationship as `SearchAPI` observes it. -/
structure SRel where
  sourceEntityId : Chars
  targetEntityId : Chars
  type : Chars
deriving DecidableEq, Repr

/-- The stored data the `SearchAPI` methods read. -/
structure SDb where
  entities : List SEntity
  relationships : List SRel
deriving Repr

/-- Modelled from the spec: `DatabaseManager.getEntity(id)` returns the
stored entity with that id, or null when absent (storage lookup
returning not-found yields null, not an error). -/
def getEntity (db : SDb) (id : Chars) : Option SEntity :=
  db.entities.find? (fun e => decide (e.id = id))

/-- Modelled from the spec:
`DatabaseManager.getRelationships({sourceEntityId})` returns the stored
relationships whose source entity id matches the filter. -/
def getRelsBySource (db : SDb) (id : Chars) : List SRel :=
  db.relationships.filter (fun r => decide (r.sourceEntityId = id))

/-- Modelled from the spec:
`DatabaseManager.getRelationships({targetEntityId})` returns the stored
relationships whose target entity id matches the filter. -/
def getRelsByTarget (db : SDb) (id : Chars) : List SRel :=
  db.relationships.filter (fun r => decide (r.targetEntityId = id))

/-- The edge-dedup key
`` `${rel.sourceEntityId}-${rel.targetEntityId}-${rel.type}` ``. -/
def edgeKey (r : SRel) : Chars :=
  r.sourceEntityId ++ '-' :: r.targetEntityId ++ '-' :: r.type

/-- The mutable state threaded through `fetchEntityRelations`: the
`nodes` and `edges` maps and the `visited` set. -/
structure GraphState where
  nodes : List (Chars × SEntity)
  edges : List (Chars × SRel)
  visited : List Chars
deriving Repr

/-- The resolved options of `getEntityGraph` (defaults
`depth = 2`, `includeReverse = true`). -/
structure GraphOptions where
  depth : Nat
  includeReverse : Bool
deriving Repr

/-- `if (!edges.has(edgeKey)) edges.set(edgeKey, rel)`. -/
def addEdge (st : GraphState) (r : SRel) : GraphState :=
  if jsMapHas st.edges (edgeKey r) then st
  else { st with edges := st.edges ++ [(edgeKey r, r)] }

/-- The body of `SearchAPI.fetchEntityRelations`, abstracted over the
recursive call; the recursion itself is tied below by fuel, which is
never exhausted when the initial fuel exceeds `opts.depth`, since
`currentDepth` grows by 1 per level and recursion requires
`currentDepth < opts.depth`. -/
def fetchGo (db : SDb) (opts : GraphOptions)
    (recur : Chars → Nat → GraphState → GraphState)
    (entityId : Chars) (currentDepth : Nat) (st : GraphState) :
    GraphState :=
  if opts.depth < currentDepth ∨ entityId ∈ st.visited then st
  else
    let st1 := { st with visited := jsSetAdd st.visited entityId }
    match getEntity db entityId with
    | none => st1
    | some entity =>
      let st2 := { st1 with nodes := jsMapSet st1.nodes entityId entity }
      let st3 := (getRelsBySource db entityId).foldl
        (fun acc r =>
          let acc1 := addEdge acc r
          if currentDepth < opts.depth then
            recur r.targetEntityId (currentDepth + 1) acc1
          else acc1) st2
      if opts.includeReverse then
        (getRelsByTarget db entityId).foldl
          (fun acc r =>
            let acc1 := addEdge acc r
            if currentDepth < opts.depth then
              recur r.sourceEntityId (currentDepth + 1) acc1
            else acc1) st3
      else st3

/-- The fuel recursion: at fuel 0 the recursive calls return the state
unchanged (never reached when the initial fuel exceeds `opts.depth`). -/
def fetchEntityRelations (db : SDb) (opts : GraphOptions) :
    Nat → Chars → Nat → GraphState → GraphState :=
  fun fuel =>
    Nat.rec (motive := fun _ => Chars → Nat → GraphState → GraphState)
      (fetchGo db opts (fun _ _ st => st))
      (fun _ ih => fetchGo db opts ih) fuel

/-- The graph value `getEntityGraph` returns. -/
structure NetworkGraph where
  nodes : List SEntity
  edges : List SRel
deriving DecidableEq, Repr

/-- `SearchAPI.getEntityGraph` on resolved options. -/
def getEntityGraph (db : SDb) (entityId : Chars) (opts : GraphOptions) :
    NetworkGraph :=
  let st := fetchEntityRelations db opts (opts.depth + 1) entityId 0
    ⟨[], [], []⟩
  ⟨jsMapValues st.nodes, jsMapValues st.edges⟩

/-- One step of the edge-map accumulation of `fetchEntityRelations`,
on the edge map alone. -/
def edgeStep (m : List (Chars × SRel)) (r : SRel) : List (Chars × SRel) :=
  if jsMapHas m (edgeKey r) then m else m ++ [(edgeKey r, r)]

/-- The edge map obtained by folding `edgeStep` from the empty map. -/
def dedupEdges (rs : List SRel) : List (Chars × SRel) :=
  rs.foldl edgeStep []

/-- The relationships incident to `id` in the order `fetchEntityRelations`
visits them: outgoing first, then (when `includeReverse`) incoming. -/
def incidentRels (db : SDb) (id : Chars) (includeReverse : Bool) :
    List SRel :=
  getRelsBySource db id ++
    (if includeReverse then getRelsByTarget db id else [])

/-- A two-entity store with one relationship `e1 → e2`. -/
def exDb : SDb :=
  { entities := [⟨"e1".toList, "E1".toList⟩, ⟨"e2".toList, "E2".toList⟩],
    relationships := [⟨"e1".toList, "e2".toList, "rel".toList⟩] }

end SearchAPI

theorem foldl_addEdge (rs : List SearchAPI.SRel)
    (st : SearchAPI.GraphState) :
    rs.foldl SearchAPI.addEdge st =
      { st with edges := rs.foldl SearchAPI.edgeStep st.edges } := by
  induction rs generalizing st with
  | nil => rfl
  | cons r rs ih =>
    simp only [List.foldl_cons]
    rw [ih]
    simp only [SearchAPI.addEdge, SearchAPI.edgeStep]
    by_cases hmem : jsMapHas st.edges (SearchAPI.edgeKey r) = true
    · rw [if_pos hmem, if_pos hmem]
    · rw [if_neg hmem, if_neg hmem]

theorem fetch_depth_zero (db : SearchAPI.SDb) (incl : Bool)
    (id : Chars) (ent : SearchAPI.SEntity) (st : SearchAPI.GraphState)
    (h : SearchAPI.getEntity db id = some ent) (hvis : id ∉ st.visited) :
    SearchAPI.fetchEntityRelations db ⟨0, incl⟩ 1 id 0 st =
      { nodes := jsMapSet st.nodes id ent,
        edges := (SearchAPI.incidentRels db id incl).foldl
          SearchAPI.edgeStep st.edges,
        visited := st.visited ++ [id] } := by
  have h1 : SearchAPI.fetchEntityRelations db ⟨0, incl⟩ 1 id 0 st =
      SearchAPI.fetchGo db ⟨0, incl⟩
        (SearchAPI.fetchGo db ⟨0, incl⟩ (fun _ _ st => st)) id 0 st := rfl
  rw [h1]
  unfold SearchAPI.fetchGo
  rw [if_neg (by simp [hvis]), h]
  simp only [lt_self_iff_false, if_false]
  have he : (fun (acc : SearchAPI.GraphState) (r : SearchAPI.SRel) =>
      SearchAPI.addEdge acc r) = SearchAPI.addEdge := rfl
  cases incl with
  | false =>
    simp only [SearchAPI.incidentRels, jsSetAdd, hvis, Bool.false_eq_true,
      if_false, List.append_nil, he, foldl_addEdge]
  | true =>
    simp only [SearchAPI.incidentRels, jsSetAdd, hvis, if_true,
      List.foldl_append, he, foldl_addEdge]
    simp

/-- Counterexample to C5: in a store holding entities `e1`, `e2` and one
relationship `e1 → e2`, `getEntityGraph("e1", {depth: 0})` (with the
default `includeReverse: true`) returns one node but one edge, not zero:
`fetchEntityRelations` records every incident relationship in `edges`
before the depth check, which only gates the recursion. -/
theorem c5_counterexample :
    (SearchAPI.getEntityGraph SearchAPI.exDb ("e1".toList)
        ⟨0, true⟩).nodes.length = 1 ∧
    (SearchAPI.getEntityGraph SearchAPI.exDb ("e1".toList)
        ⟨0, true⟩).edges.length = 1 := by
  constructor <;> with_unfolding_all rfl

/-- C5 (amended): for every stored entity id, `getEntityGraph` at depth 0
returns exactly that entity as the single node, and as edges the
key-deduplicated incident relationships of that entity — outgoing ones,
then incoming ones when `includeReverse` is set (the default) — rather
than zero edges. -/
theorem c5_depth_zero (db : SearchAPI.SDb) (id : Chars) (incl : Bool)
    (ent : SearchAPI.SEntity)
    (h : SearchAPI.getEntity db id = some ent) :
    (SearchAPI.getEntityGraph db id ⟨0, incl⟩).nodes = [ent] ∧
    (SearchAPI.getEntityGraph db id ⟨0, incl⟩).edges =
      jsMapValues (SearchAPI.dedupEdges
        (SearchAPI.incidentRels db id incl)) := by
  have hf := fetch_depth_zero db incl id ent ⟨[], [], []⟩ h
    (List.not_mem_nil id)
  constructor
  · show jsMapValues (SearchAPI.fetchEntityRelations db ⟨0, incl⟩ 1 id 0
      ⟨[], [], []⟩).nodes = [ent]
    rw [hf]
    rfl
  · show jsMapValues (SearchAPI.fetchEntityRelations db ⟨0, incl⟩ 1 id 0
      ⟨[], [], []⟩).edges = _
    rw [hf]
    rfl

theorem c5_depth_zero_witness :
    (SearchAPI.getEntityGraph SearchAPI.exDb ("e1".toList)
        ⟨0, true⟩).nodes = [⟨"e1".toList, "E1".toList⟩] ∧
    (SearchAPI.getEntityGraph SearchAPI.exDb ("e1".toList)
        ⟨0, true⟩).edges =
      jsMapValues (SearchAPI.dedupEdges
        (SearchAPI.incidentRels SearchAPI.exDb ("e1".toList) true)) :=
  c5_depth_zero SearchAPI.exDb ("e1".toList) true
    ⟨"e1".toList, "E1".toList⟩ (by decide)

/-! ### C4: findEntityPath BFS -/

namespace SearchAPI

/-- A queue entry of `findEntityPath`: the entity reached and the
relationship path that reached it. -/
structure QItem where
  entityId : Chars
  path : List SRel
deriving DecidableEq, Repr

/-- The per-relationship step of the BFS loop: the next entity id and the
path element recorded — the relationship itself for an outgoing edge,
a copy with `"_reverse"` appended to its type for an incoming edge. -/
def stepRel (entityId : Chars) (r : SRel) : Chars × SRel :=
  if r.sourceEntityId = entityId then (r.targetEntityId, r)
  else (r.sourceEntityId, { r with type := r.type ++ "_reverse".toList })

/-- `[...outgoingRels, ...incomingRels]`. -/
def allRels (db : SDb) (id : Chars) : List SRel :=
  getRelsBySource db id ++ getRelsByTarget db id

/-- Processing one relationship of the dequeued item `h`: skip if the
next entity is visited, otherwise mark it visited and enqueue it. -/
def enqStep (h : QItem) (p : List QItem × List Chars) (r : SRel) :
    List QItem × List Chars :=
  let nx := stepRel h.entityId r
  if nx.1 ∈ p.2 then p
  else (p.1 ++ [⟨nx.1, h.path ++ [nx.2]⟩], p.2 ++ [nx.1])

/-- One iteration of the `while (queue.length > 0)` loop of
`findEntityPath`, abstracted over the continuation. -/
def bfsGo (db : SDb) (t : Chars) (maxDepth : Nat)
    (recur : List QItem → List Chars → List SRel)
    (queue : List QItem) (visited : List Chars) : List SRel :=
  match queue with
  | [] => []
  | h :: rest =>
    if h.entityId = t then h.path
    else if maxDepth ≤ h.path.length then recur rest visited
    else
      let p := (allRels db h.entityId).foldl (enqStep h) (rest, visited)
      recur p.1 p.2

/-- The BFS loop, tied by fuel; with sufficient fuel (provided below)
the fuel never runs out before the queue empties. -/
def bfsLoop (db : SDb) (t : Chars) (maxDepth : Nat) :
    Nat → List QItem → List Chars → List SRel :=
  fun fuel =>
    Nat.rec (motive := fun _ => List QItem → List Chars → List SRel)
      (fun _ _ => []) (fun _ ih => bfsGo db t maxDepth ih) fuel

/-- The source id together with every relationship endpoint: every id the
BFS can ever visit. -/
def idsList (db : SDb) (s : Chars) : List Chars :=
  s :: db.relationships.foldr
    (fun r acc => r.sourceEntityId :: r.targetEntityId :: acc) []

/-- Enough fuel for the loop: each iteration removes one queue entry and
every enqueue consumes one unvisited id. -/
def bfsFuel (db : SDb) (s : Chars) : Nat := 2 * (idsList db s).length + 2

/-- `SearchAPI.findEntityPath`. -/
def findEntityPath (db : SDb) (s t : Chars) (maxDepth : Nat) :
    List SRel :=
  bfsLoop db t maxDepth (bfsFuel db s) [⟨s, []⟩] [s]

/-- Undirected adjacency of the stored relationship graph. -/
def adj (db : SDb) (a b : Chars) : Prop :=
  ∃ r ∈ db.relationships,
    (r.sourceEntityId = a ∧ r.targetEntityId = b) ∨
    (r.targetEntityId = a ∧ r.sourceEntityId = b)

/-- An undirected walk with its hop count. -/
inductive UWalk (db : SDb) : Chars → Chars → Nat → Prop
  | nil (a : Chars) : UWalk db a a 0
  | cons {a b c : Chars} {n : Nat} :
      adj db a b → UWalk db b c n → UWalk db a c (n + 1)

/-- `DecPath db a b p`: `p` is a record of a walk from `a` to `b` in the
form `findEntityPath` returns it — each element a stored relationship
traversed forward, or a stored relationship traversed backward with
`"_reverse"` appended to its type. -/
inductive DecPath (db : SDb) : Chars → Chars → List SRel → Prop
  | nil (a : Chars) : DecPath db a a []
  | fwd {a c : Chars} {p : List SRel} (r : SRel) :
      r ∈ db.relationships → r.sourceEntityId = a →
      DecPath db r.targetEntityId c p → DecPath db a c (r :: p)
  | rev {a c : Chars} {p : List SRel} (r : SRel) :
      r ∈ db.relationships → r.targetEntityId = a →
      DecPath db r.sourceEntityId c p →
      DecPath db a c ({ r with type := r.type ++ "_reverse".toList } :: p)

end SearchAPI

theorem uwalk_snoc {db : SearchAPI.SDb} :
    ∀ {n : Nat} {s v : Chars}, SearchAPI.UWalk db s v (n + 1) →
      ∃ u, SearchAPI.UWalk db s u n ∧ SearchAPI.adj db u v := by
  intro n
  induction n with
  | zero =>
    intro s v h
    cases h with
    | cons hadj htail =>
      cases htail
      exact ⟨s, SearchAPI.UWalk.nil s, hadj⟩
  | succ n ihn =>
    intro s v h
    cases h with
    | cons hadj htail =>
      obtain ⟨u, hw, ha⟩ := ihn htail
      exact ⟨u, SearchAPI.UWalk.cons hadj hw, ha⟩

theorem decPath_snoc_fwd {db : SearchAPI.SDb} (r : SearchAPI.SRel)
    (hr : r ∈ db.relationships) :
    ∀ {a c : Chars} {p : List SearchAPI.SRel},
      SearchAPI.DecPath db a c p → r.sourceEntityId = c →
      SearchAPI.DecPath db a r.targetEntityId (p ++ [r]) := by
  intro a c p h
  induction h with
  | nil a =>
    intro hs
    exact SearchAPI.DecPath.fwd r hr hs (SearchAPI.DecPath.nil _)
  | fwd r' hr' hs' _ ih =>
    intro hs
    exact SearchAPI.DecPath.fwd r' hr' hs' (ih hs)
  | rev r' hr' ht' _ ih =>
    intro hs
    exact SearchAPI.DecPath.rev r' hr' ht' (ih hs)

theorem decPath_snoc_rev {db : SearchAPI.SDb} (r : SearchAPI.SRel)
    (hr : r ∈ db.relationships) :
    ∀ {a c : Chars} {p : List SearchAPI.SRel},
      SearchAPI.DecPath db a c p → r.targetEntityId = c →
      SearchAPI.DecPath db a r.sourceEntityId
        (p ++ [{ r with type := r.type ++ "_reverse".toList }]) := by
  intro a c p h
  induction h with
  | nil a =>
    intro ht
    exact SearchAPI.DecPath.rev r hr ht (SearchAPI.DecPath.nil _)
  | fwd r' hr' hs' _ ih =>
    intro ht
    exact SearchAPI.DecPath.fwd r' hr' hs' (ih ht)
  | rev r' hr' ht' _ ih =>
    intro ht
    exact SearchAPI.DecPath.rev r' hr' ht' (ih ht)

theorem decPath_walk {db : SearchAPI.SDb} {a c : Chars}
    {p : List SearchAPI.SRel} (h : SearchAPI.DecPath db a c p) :
    SearchAPI.UWalk db a c p.length := by
  induction h with
  | nil a => exact SearchAPI.UWalk.nil a
  | fwd r hr hs _ ih =>
    exact SearchAPI.UWalk.cons ⟨r, hr, Or.inl ⟨hs, rfl⟩⟩ ih
  | rev r hr ht _ ih =>
    exact SearchAPI.UWalk.cons ⟨r, hr, Or.inr ⟨ht, rfl⟩⟩ ih

theorem mem_allRels {db : SearchAPI.SDb} {a : Chars}
    {r : SearchAPI.SRel} (h : r ∈ SearchAPI.allRels db a) :
    r ∈ db.relationships := by
  rcases List.mem_append.mp h with h' | h' <;>
    exact (List.mem_filter.mp h').1

theorem allRels_src_or_tgt {db : SearchAPI.SDb} {a : Chars}
    {r : SearchAPI.SRel} (h : r ∈ SearchAPI.allRels db a) :
    r.sourceEntityId = a ∨ r.targetEntityId = a := by
  rcases List.mem_append.mp h with h' | h'
  · exact Or.inl (of_decide_eq_true (List.mem_filter.mp h').2)
  · exact Or.inr (of_decide_eq_true (List.mem_filter.mp h').2)

theorem adj_step {db : SearchAPI.SDb} {a w : Chars}
    (h : SearchAPI.adj db a w) :
    ∃ r ∈ SearchAPI.allRels db a, (SearchAPI.stepRel a r).1 = w := by
  obtain ⟨r, hmem, hc⟩ := h
  rcases hc with ⟨hs, ht⟩ | ⟨ht, hs⟩
  · refine ⟨r, List.mem_append_left _ ?_, ?_⟩
    · exact List.mem_filter.mpr ⟨hmem, decide_eq_true hs⟩
    · simp [SearchAPI.stepRel, hs, ht]
  · refine ⟨r, List.mem_append_right _ ?_, ?_⟩
    · exact List.mem_filter.mpr ⟨hmem, decide_eq_true ht⟩
    · by_cases hsa : r.sourceEntityId = a
      · simp only [SearchAPI.stepRel, hsa, if_pos]
        rw [ht, ← hsa, hs]
      · simp only [SearchAPI.stepRel]
        rw [if_neg hsa]
        exact hs

theorem mem_endpoints {l : List SearchAPI.SRel} {r : SearchAPI.SRel}
    (hr : r ∈ l) :
    r.sourceEntityId ∈ l.foldr
      (fun r acc => r.sourceEntityId :: r.targetEntityId :: acc) [] ∧
    r.targetEntityId ∈ l.foldr
      (fun r acc => r.sourceEntityId :: r.targetEntityId :: acc) [] := by
  induction l with
  | nil => cases hr
  | cons x xs ih =>
    rcases List.mem_cons.mp hr with rfl | hr'
    · simp
    · obtain ⟨h1, h2⟩ := ih hr'
      simp only [List.foldr_cons, List.mem_cons]
      exact ⟨Or.inr (Or.inr h1), Or.inr (Or.inr h2)⟩

theorem mem_idsList {db : SearchAPI.SDb} {s : Chars}
    {r : SearchAPI.SRel} (hr : r ∈ db.relationships) :
    r.sourceEntityId ∈ SearchAPI.idsList db s ∧
    r.targetEntityId ∈ SearchAPI.idsList db s := by
  obtain ⟨h1, h2⟩ := mem_endpoints hr
  exact ⟨List.mem_cons_of_mem _ h1, List.mem_cons_of_mem _ h2⟩

theorem pairwise_of_all {α : Type _} {R : α → α → Prop} {l : List α}
    (h : ∀ a ∈ l, ∀ b ∈ l, R a b) : l.Pairwise R := by
  induction l with
  | nil => exact List.Pairwise.nil
  | cons x xs ih =>
    refine List.Pairwise.cons ?_ (ih ?_)
    · intro b hb
      exact h x (List.mem_cons_self x xs) b (List.mem_cons_of_mem _ hb)
    · intro a ha b hb
      exact h a (List.mem_cons_of_mem _ ha) b (List.mem_cons_of_mem _ hb)

theorem nodup_subset_length {l bound : List Chars} (hn : l.Nodup)
    (hs : ∀ x ∈ l, x ∈ bound) : l.length ≤ bound.length := by
  have h1 : l.toFinset.card = l.length := List.toFinset_card_of_nodup hn
  have h2 : l.toFinset ⊆ bound.toFinset := by
    intro x hx
    exact List.mem_toFinset.mpr (hs x (List.mem_toFinset.mp hx))
  calc l.length = l.toFinset.card := h1.symm
    _ ≤ bound.toFinset.card := Finset.card_le_card h2
    _ ≤ bound.length := bound.toFinset_card_le

theorem enqFold (h : SearchAPI.QItem) :
    ∀ (rels : List SearchAPI.SRel) (q0 : List SearchAPI.QItem)
      (vis0 : List Chars),
      ∃ news : List SearchAPI.QItem,
        (rels.foldl (SearchAPI.enqStep h) (q0, vis0)).1 = q0 ++ news ∧
        (rels.foldl (SearchAPI.enqStep h) (q0, vis0)).2 =
          vis0 ++ news.map (·.entityId) ∧
        (news.map (·.entityId)).Nodup ∧
        (∀ x ∈ news, x.entityId ∉ vis0) ∧
        (∀ x ∈ news, ∃ r ∈ rels,
          x = ⟨(SearchAPI.stepRel h.entityId r).1,
               h.path ++ [(SearchAPI.stepRel h.entityId r).2]⟩) ∧
        (∀ r ∈ rels, (SearchAPI.stepRel h.entityId r).1 ∈
          (rels.foldl (SearchAPI.enqStep h) (q0, vis0)).2) := by
  intro rels
  induction rels with
  | nil =>
    intro q0 vis0
    refine ⟨[], by simp, by simp, by simp, by simp, by simp, by simp⟩
  | cons r rs ih =>
    intro q0 vis0
    simp only [List.foldl_cons]
    by_cases hv : (SearchAPI.stepRel h.entityId r).1 ∈ vis0
    · have hstep : SearchAPI.enqStep h (q0, vis0) r = (q0, vis0) := by
        simp [SearchAPI.enqStep, hv]
      rw [hstep]
      obtain ⟨news, h1, h2, h3, h4, h5, h6⟩ := ih q0 vis0
      refine ⟨news, h1, h2, h3, h4, ?_, ?_⟩
      · intro x hx
        obtain ⟨r', hr', hx'⟩ := h5 x hx
        exact ⟨r', List.mem_cons_of_mem _ hr', hx'⟩
      · intro r' hr'
        rcases List.mem_cons.mp hr' with hrr | hr''
        · rw [hrr, h2]
          exact List.mem_append_left _ hv
        · exact h6 r' hr''
    · have hstep : SearchAPI.enqStep h (q0, vis0) r =
          (q0 ++ [⟨(SearchAPI.stepRel h.entityId r).1,
            h.path ++ [(SearchAPI.stepRel h.entityId r).2]⟩],
           vis0 ++ [(SearchAPI.stepRel h.entityId r).1]) := by
        simp [SearchAPI.enqStep, hv]
      rw [hstep]
      obtain ⟨news, h1, h2, h3, h4, h5, h6⟩ :=
        ih (q0 ++ [⟨(SearchAPI.stepRel h.entityId r).1,
          h.path ++ [(SearchAPI.stepRel h.entityId r).2]⟩])
          (vis0 ++ [(SearchAPI.stepRel h.entityId r).1])
      refine ⟨⟨(SearchAPI.stepRel h.entityId r).1,
        h.path ++ [(SearchAPI.stepRel h.entityId r).2]⟩ :: news,
        ?_, ?_, ?_, ?_, ?_, ?_⟩
      · rw [h1]
        simp
      · rw [h2]
        simp
      · refine List.Nodup.cons ?_ h3
        intro hmem
        obtain ⟨x, hx, hxid⟩ := List.mem_map.mp hmem
        exact absurd (by
          have := h4 x hx
          simp only [List.mem_append] at this
          push_neg at this
          exact this.2) (by simp [hxid])
      · intro x hx
        rcases List.mem_cons.mp hx with rfl | hx'
        · exact hv
        · intro hvv
          exact absurd (List.mem_append_left _ hvv) (h4 x hx')
      · intro x hx
        rcases List.mem_cons.mp hx with rfl | hx'
        · exact ⟨r, List.mem_cons_self r rs, rfl⟩
        · obtain ⟨r', hr', hx''⟩ := h5 x hx'
          exact ⟨r', List.mem_cons_of_mem _ hr', hx''⟩
      · intro r' hr'
        rcases List.mem_cons.mp hr' with hrr | hr''
        · rw [hrr, h2]
          exact List.mem_append_left _ (List.mem_append_right _
            (List.mem_singleton_self _))
        · exact h6 r' hr''

namespace SearchAPI

/-- The BFS loop invariant.  `processed` holds the already dequeued
entries in dequeue order; `processed ++ queue` is the list of all entries
ever enqueued, in enqueue order. -/
structure BfsInv (db : SDb) (s t : Chars) (maxDepth : Nat)
    (processed queue : List QItem) (visited : List Chars) : Prop where
  vis_eq : visited = (processed ++ queue).map (·.entityId)
  vis_nodup : visited.Nodup
  vis_ids : ∀ v ∈ visited, v ∈ idsList db s
  paths : ∀ e ∈ processed ++ queue, DecPath db s e.entityId e.path
  sorted : List.Pairwise (fun a b => a.path.length ≤ b.path.length)
    (processed ++ queue)
  window : ∀ h, queue.head? = some h → ∀ e ∈ processed ++ queue,
    e.path.length ≤ h.path.length + 1
  expanded : ∀ p ∈ processed, p.path.length < maxDepth →
    ∀ w, adj db p.entityId w → ∃ e ∈ processed ++ queue,
      e.entityId = w ∧ e.path.length ≤ p.path.length + 1
  not_target : ∀ p ∈ processed, p.entityId ≠ t
  src_mem : ∃ e ∈ processed ++ queue, e.entityId = s ∧ e.path.length = 0
  depth_le : ∀ e ∈ processed ++ queue, e.path.length ≤ maxDepth

end SearchAPI

theorem inv_skip {db : SearchAPI.SDb} {s t : Chars} {maxDepth : Nat}
    {processed : List SearchAPI.QItem} {h : SearchAPI.QItem}
    {rest : List SearchAPI.QItem} {visited : List Chars}
    (hinv : SearchAPI.BfsInv db s t maxDepth processed (h :: rest) visited)
    (hht : h.entityId ≠ t) (hdep : maxDepth ≤ h.path.length) :
    SearchAPI.BfsInv db s t maxDepth (processed ++ [h]) rest visited := by
  have hE : (processed ++ [h]) ++ rest = processed ++ (h :: rest) := by
    simp
  have hsub : (h :: rest).Pairwise
      (fun a b => a.path.length ≤ b.path.length) :=
    hinv.sorted.sublist (List.sublist_append_right processed (h :: rest))
  have hhr : ∀ e ∈ rest, h.path.length ≤ e.path.length :=
    (List.pairwise_cons.mp hsub).1
  refine ⟨?_, hinv.vis_nodup, hinv.vis_ids, ?_, ?_, ?_, ?_, ?_, ?_, ?_⟩
  · rw [hE]
    exact hinv.vis_eq
  · rw [hE]
    exact hinv.paths
  · rw [hE]
    exact hinv.sorted
  · intro h' hh' e he
    rw [hE] at he
    have h1 := hinv.window h rfl e he
    have h2 := hhr h' (List.mem_of_mem_head? (by simp [hh']))
    omega
  · intro p hp hplt w hadj
    rcases List.mem_append.mp hp with hp' | hp''
    · obtain ⟨e, he, hid, hlen⟩ := hinv.expanded p hp' hplt w hadj
      exact ⟨e, by rw [hE]; exact he, hid, hlen⟩
    · have hph : p = h := List.mem_singleton.mp hp''
      subst hph
      omega
  · intro p hp
    rcases List.mem_append.mp hp with hp' | hp''
    · exact hinv.not_target p hp'
    · rw [List.mem_singleton.mp hp'']
      exact hht
  · obtain ⟨e, he, h1, h2⟩ := hinv.src_mem
    exact ⟨e, by rw [hE]; exact he, h1, h2⟩
  · rw [hE]
    exact hinv.depth_le

theorem inv_expand {db : SearchAPI.SDb} {s t : Chars} {maxDepth : Nat}
    {processed : List SearchAPI.QItem} {h : SearchAPI.QItem}
    {rest news : List SearchAPI.QItem} {visited : List Chars}
    (hinv : SearchAPI.BfsInv db s t maxDepth processed (h :: rest) visited)
    (hht : h.entityId ≠ t) (hdep : h.path.length < maxDepth)
    (hnd : (news.map (·.entityId)).Nodup)
    (hnotvis : ∀ x ∈ news, x.entityId ∉ visited)
    (hsrcs : ∀ x ∈ news, ∃ r ∈ SearchAPI.allRels db h.entityId,
      x = ⟨(SearchAPI.stepRel h.entityId r).1,
           h.path ++ [(SearchAPI.stepRel h.entityId r).2]⟩)
    (hcov : ∀ w, SearchAPI.adj db h.entityId w →
      w ∈ visited ++ news.map (·.entityId)) :
    SearchAPI.BfsInv db s t maxDepth (processed ++ [h]) (rest ++ news)
      (visited ++ news.map (·.entityId)) := by
  have hE : (processed ++ [h]) ++ (rest ++ news) =
      (processed ++ h :: rest) ++ news := by simp
  have hmem_h : h ∈ processed ++ h :: rest := by simp
  have hlen_news : ∀ x ∈ news, x.path.length = h.path.length + 1 := by
    intro x hx
    obtain ⟨r, _, rfl⟩ := hsrcs x hx
    simp
  have hid_news : ∀ x ∈ news, x.entityId ∈ SearchAPI.idsList db s := by
    intro x hx
    obtain ⟨r, hr, rfl⟩ := hsrcs x hx
    by_cases hc : r.sourceEntityId = h.entityId
    · simp only [SearchAPI.stepRel, if_pos hc]
      exact (mem_idsList (mem_allRels hr)).2
    · simp only [SearchAPI.stepRel, if_neg hc]
      exact (mem_idsList (mem_allRels hr)).1
  have hpath_news : ∀ x ∈ news,
      SearchAPI.DecPath db s x.entityId x.path := by
    intro x hx
    obtain ⟨r, hr, rfl⟩ := hsrcs x hx
    by_cases hc : r.sourceEntityId = h.entityId
    · simp only [SearchAPI.stepRel, if_pos hc]
      exact decPath_snoc_fwd r (mem_allRels hr)
        (hinv.paths h hmem_h) hc
    · have ht' : r.targetEntityId = h.entityId := by
        rcases allRels_src_or_tgt hr with h' | h'
        · exact absurd h' hc
        · exact h'
      simp only [SearchAPI.stepRel, if_neg hc]
      exact decPath_snoc_rev r (mem_allRels hr)
        (hinv.paths h hmem_h) ht'
  have hwin_e : ∀ e ∈ processed ++ h :: rest,
      e.path.length ≤ h.path.length + 1 := hinv.window h rfl
  have hsub : (h :: rest).Pairwise
      (fun a b => a.path.length ≤ b.path.length) :=
    hinv.sorted.sublist (List.sublist_append_right processed (h :: rest))
  have hhr : ∀ e ∈ rest, h.path.length ≤ e.path.length :=
    (List.pairwise_cons.mp hsub).1
  refine ⟨?_, ?_, ?_, ?_, ?_, ?_, ?_, ?_, ?_, ?_⟩
  · rw [hE, List.map_append, ← hinv.vis_eq]
  · refine List.Nodup.append hinv.vis_nodup hnd ?_
    intro a ha hb
    obtain ⟨x, hx, rfl⟩ := List.mem_map.mp hb
    exact hnotvis x hx ha
  · intro v hv
    rcases List.mem_append.mp hv with hv' | hv'
    · exact hinv.vis_ids v hv'
    · obtain ⟨x, hx, rfl⟩ := List.mem_map.mp hv'
      exact hid_news x hx
  · rw [hE]
    intro e he
    rcases List.mem_append.mp he with he' | he'
    · exact hinv.paths e he'
    · exact hpath_news e he'
  · rw [hE]
    refine List.pairwise_append.mpr ⟨hinv.sorted, ?_, ?_⟩
    · refine pairwise_of_all ?_
      intro a ha b hb
      rw [hlen_news a ha, hlen_news b hb]
    · intro a ha b hb
      have h1 := hwin_e a ha
      have h2 := hlen_news b hb
      omega
  · intro h' hh' e he
    rw [hE] at he
    have hh'm : h' ∈ rest ++ news :=
      List.mem_of_mem_head? (by simp [hh'])
    have hhle : h.path.length ≤ h'.path.length := by
      rcases List.mem_append.mp hh'm with hm | hm
      · exact hhr h' hm
      · rw [hlen_news h' hm]
        omega
    rcases List.mem_append.mp he with he' | he'
    · have := hwin_e e he'
      omega
    · have := hlen_news e he'
      omega
  · intro p hp hplt w hadj
    rcases List.mem_append.mp hp with hp' | hp''
    · obtain ⟨e, he, hid, hlen⟩ := hinv.expanded p hp' hplt w hadj
      refine ⟨e, ?_, hid, hlen⟩
      rw [hE]
      exact List.mem_append_left _ he
    · have hph : p = h := List.mem_singleton.mp hp''
      subst hph
      have hw := hcov w hadj
      rcases List.mem_append.mp hw with hw' | hw'
      · rw [hinv.vis_eq] at hw'
        obtain ⟨e, he, rfl⟩ := List.mem_map.mp hw'
        refine ⟨e, ?_, rfl, hwin_e e he⟩
        rw [hE]
        exact List.mem_append_left _ he
      · obtain ⟨x, hx, rfl⟩ := List.mem_map.mp hw'
        refine ⟨x, ?_, rfl, ?_⟩
        · rw [hE]
          exact List.mem_append_right _ hx
        · rw [hlen_news x hx]
  · intro p hp
    rcases List.mem_append.mp hp with hp' | hp''
    · exact hinv.not_target p hp'
    · rw [List.mem_singleton.mp hp'']
      exact hht
  · obtain ⟨e, he, h1, h2⟩ := hinv.src_mem
    refine ⟨e, ?_, h1, h2⟩
    rw [hE]
    exact List.mem_append_left _ he
  · rw [hE]
    intro e he
    rcases List.mem_append.mp he with he' | he'
    · exact hinv.depth_le e he'
    · have := hlen_news e he'
      omega

theorem bfs_cover {db : SearchAPI.SDb} {s t : Chars} {maxDepth : Nat}
    {processed : List SearchAPI.QItem} {h : SearchAPI.QItem}
    {rest : List SearchAPI.QItem} {visited : List Chars}
    (hinv : SearchAPI.BfsInv db s t maxDepth processed (h :: rest)
      visited) :
    ∀ n, n ≤ maxDepth → ∀ v, SearchAPI.UWalk db s v n →
      (∃ e ∈ processed ++ h :: rest,
        e.entityId = v ∧ e.path.length ≤ n) ∨
      h.path.length ≤ n := by
  intro n
  induction n with
  | zero =>
    intro _ v hw
    cases hw
    obtain ⟨e, he, h1, h2⟩ := hinv.src_mem
    exact Or.inl ⟨e, he, h1, Nat.le_of_eq h2⟩
  | succ n ihn =>
    intro hn v hw
    obtain ⟨u, hwu, hadj⟩ := uwalk_snoc hw
    rcases ihn (by omega) u hwu with ⟨e, he, heid, helen⟩ | hlen
    · rcases List.mem_append.mp he with hp | hq
      · have hlt : e.path.length < maxDepth := by omega
        obtain ⟨e', he', hid', hlen'⟩ :=
          hinv.expanded e hp hlt v (heid ▸ hadj)
        exact Or.inl ⟨e', he', hid', by omega⟩
      · rcases List.mem_cons.mp hq with rfl | hq'
        · exact Or.inr (by omega)
        · have := (List.pairwise_cons.mp
            (hinv.sorted.sublist
              (List.sublist_append_right processed (h :: rest)))).1
            e hq'
          exact Or.inr (by omega)
    · exact Or.inr (by omega)

theorem bfs_min {db : SearchAPI.SDb} {s t : Chars} {maxDepth : Nat}
    {processed : List SearchAPI.QItem} {h : SearchAPI.QItem}
    {rest : List SearchAPI.QItem} {visited : List Chars}
    (hinv : SearchAPI.BfsInv db s t maxDepth processed (h :: rest)
      visited)
    (hht : h.entityId = t) {n : Nat} (hn : n ≤ maxDepth)
    (hw : SearchAPI.UWalk db s t n) : h.path.length ≤ n := by
  rcases bfs_cover hinv n hn t hw with ⟨e, he, heid, helen⟩ | hlen
  · rcases List.mem_append.mp he with hp | hq
    · exact absurd heid (hinv.not_target e hp)
    · rcases List.mem_cons.mp hq with rfl | hq'
      · exact helen
      · have := (List.pairwise_cons.mp
          (hinv.sorted.sublist
            (List.sublist_append_right processed (h :: rest)))).1 e hq'
        omega
  · exact hlen

theorem bfs_empty_complete {db : SearchAPI.SDb} {s t : Chars}
    {maxDepth : Nat} {processed : List SearchAPI.QItem}
    {visited : List Chars}
    (hinv : SearchAPI.BfsInv db s t maxDepth processed [] visited) :
    ∀ n, n ≤ maxDepth → ∀ v, SearchAPI.UWalk db s v n →
      ∃ e ∈ processed, e.entityId = v ∧ e.path.length ≤ n := by
  intro n
  induction n with
  | zero =>
    intro _ v hw
    cases hw
    obtain ⟨e, he, h1, h2⟩ := hinv.src_mem
    rw [List.append_nil] at he
    exact ⟨e, he, h1, Nat.le_of_eq h2⟩
  | succ n ihn =>
    intro hn v hw
    obtain ⟨u, hwu, hadj⟩ := uwalk_snoc hw
    obtain ⟨e, he, heid, helen⟩ := ihn (by omega) u hwu
    have hlt : e.path.length < maxDepth := by omega
    obtain ⟨e', he', hid', hlen'⟩ :=
      hinv.expanded e he hlt v (heid ▸ hadj)
    rw [List.append_nil] at he'
    exact ⟨e', he', hid', by omega⟩

theorem bfsLoop_correct (db : SearchAPI.SDb) (s t : Chars)
    (maxDepth : Nat) :
    ∀ (fuel : Nat) (processed queue : List SearchAPI.QItem)
      (visited : List Chars),
      SearchAPI.BfsInv db s t maxDepth processed queue visited →
      queue.length + 2 * ((SearchAPI.idsList db s).length -
        visited.length) < fuel →
      (∀ n, n ≤ maxDepth → SearchAPI.UWalk db s t n →
        SearchAPI.DecPath db s t
          (SearchAPI.bfsLoop db t maxDepth fuel queue visited) ∧
        (SearchAPI.bfsLoop db t maxDepth fuel queue visited).length ≤ n) ∧
      ((∀ n, n ≤ maxDepth → ¬ SearchAPI.UWalk db s t n) →
        SearchAPI.bfsLoop db t maxDepth fuel queue visited = []) := by
  intro fuel
  induction fuel with
  | zero =>
    intro processed queue visited _ hfuel
    exact absurd hfuel (Nat.not_lt_zero _)
  | succ fuel ih =>
    intro processed queue visited hinv hfuel
    cases queue with
    | nil =>
      constructor
      · intro n hn hw
        exfalso
        obtain ⟨e, he, heid, _⟩ := bfs_empty_complete hinv n hn t hw
        exact hinv.not_target e he heid
      · intro _
        rfl
    | cons h rest =>
      have hmemh : h ∈ processed ++ h :: rest := by simp
      by_cases hht : h.entityId = t
      · have hres : SearchAPI.bfsLoop db t maxDepth (fuel + 1)
            (h :: rest) visited = h.path := by
          show SearchAPI.bfsGo db t maxDepth
            (SearchAPI.bfsLoop db t maxDepth fuel) (h :: rest) visited =
            h.path
          simp [SearchAPI.bfsGo, hht]
        rw [hres]
        have hd : SearchAPI.DecPath db s t h.path := by
          have := hinv.paths h hmemh
          rwa [hht] at this
        constructor
        · intro n hn hw
          exact ⟨hd, bfs_min hinv hht hn hw⟩
        · intro hno
          exact absurd (decPath_walk hd) (hno _ (hinv.depth_le h hmemh))
      · by_cases hdep : maxDepth ≤ h.path.length
        · have hres : SearchAPI.bfsLoop db t maxDepth (fuel + 1)
              (h :: rest) visited =
              SearchAPI.bfsLoop db t maxDepth fuel rest visited := by
            show SearchAPI.bfsGo db t maxDepth
              (SearchAPI.bfsLoop db t maxDepth fuel) (h :: rest)
              visited = _
            simp [SearchAPI.bfsGo, hht, hdep]
          rw [hres]
          refine ih (processed ++ [h]) rest visited
            (inv_skip hinv hht hdep) ?_
          simp only [List.length_cons] at hfuel
          omega
        · have hdep' : h.path.length < maxDepth := by omega
          have hres : SearchAPI.bfsLoop db t maxDepth (fuel + 1)
              (h :: rest) visited =
              SearchAPI.bfsLoop db t maxDepth fuel
                ((SearchAPI.allRels db h.entityId).foldl
                  (SearchAPI.enqStep h) (rest, visited)).1
                ((SearchAPI.allRels db h.entityId).foldl
                  (SearchAPI.enqStep h) (rest, visited)).2 := by
            show SearchAPI.bfsGo db t maxDepth
              (SearchAPI.bfsLoop db t maxDepth fuel) (h :: rest)
              visited = _
            simp [SearchAPI.bfsGo, hht, hdep]
          rw [hres]
          obtain ⟨news, h1, h2, hnd, hnotvis, hsrcs, hcov0⟩ :=
            enqFold h (SearchAPI.allRels db h.entityId) rest visited
          rw [h1, h2]
          have hcov : ∀ w, SearchAPI.adj db h.entityId w →
              w ∈ visited ++ news.map (·.entityId) := by
            intro w hadj
            obtain ⟨r, hr, hw⟩ := adj_step hadj
            have := hcov0 r hr
            rw [h2] at this
            rwa [hw] at this
          have hinv' := inv_expand hinv hht hdep' hnd hnotvis hsrcs hcov
          refine ih (processed ++ [h]) (rest ++ news)
            (visited ++ news.map (·.entityId)) hinv' ?_
          have hb : (visited ++ news.map (·.entityId)).length ≤
              (SearchAPI.idsList db s).length :=
            nodup_subset_length hinv'.vis_nodup hinv'.vis_ids
          simp only [List.length_cons, List.length_append,
            List.length_map] at hfuel hb ⊢
          omega

namespace SearchAPI

/-- A store with a single relationship `a → b`. -/
def pathDb : SDb :=
  { entities := [],
    relationships := [⟨"a".toList, "b".toList, "knows".toList⟩] }

end SearchAPI

/-- C4: BFS shortest path.  For every pair of entity ids connected in
the undirected relationship graph within `maxDepth` hops,
`findEntityPath` returns a decodable path from source to target whose
hop count is no greater than the hop count of any such walk (hence no
greater than the true shortest); and it returns the empty sequence when
no walk of at most `maxDepth` hops exists. -/
theorem c4_bfs_shortest_path (db : SearchAPI.SDb) (s t : Chars)
    (maxDepth : Nat) :
    (∀ n, n ≤ maxDepth → SearchAPI.UWalk db s t n →
      SearchAPI.DecPath db s t
        (SearchAPI.findEntityPath db s t maxDepth) ∧
      (SearchAPI.findEntityPath db s t maxDepth).length ≤ n) ∧
    ((∀ n, n ≤ maxDepth → ¬ SearchAPI.UWalk db s t n) →
      SearchAPI.findEntityPath db s t maxDepth = []) := by
  have hinv : SearchAPI.BfsInv db s t maxDepth [] [⟨s, []⟩] [s] := by
    refine ⟨?_, ?_, ?_, ?_, ?_, ?_, ?_, ?_, ?_, ?_⟩
    · simp
    · simp
    · intro v hv
      simp only [List.mem_singleton] at hv
      rw [hv]
      exact List.mem_cons_self _ _
    · intro e he
      simp only [List.nil_append, List.mem_singleton] at he
      rw [he]
      exact SearchAPI.DecPath.nil s
    · simp
    · intro h' _ e he
      simp only [List.nil_append, List.mem_singleton] at he
      rw [he]
      simp
    · intro p hp
      exact absurd hp (List.not_mem_nil p)
    · intro p hp
      exact absurd hp (List.not_mem_nil p)
    · exact ⟨⟨s, []⟩, by simp, rfl, rfl⟩
    · intro e he
      simp only [List.nil_append, List.mem_singleton] at he
      rw [he]
      simp
  have hfuel : ([⟨s, []⟩] : List SearchAPI.QItem).length +
      2 * ((SearchAPI.idsList db s).length -
        ([s] : List Chars).length) < SearchAPI.bfsFuel db s := by
    have h1 : 1 ≤ (SearchAPI.idsList db s).length := by
      simp [SearchAPI.idsList]
    simp only [SearchAPI.bfsFuel, List.length_singleton]
    omega
  exact bfsLoop_correct db s t maxDepth (SearchAPI.bfsFuel db s)
    [] [⟨s, []⟩] [s] hinv hfuel

theorem c4_bfs_shortest_path_witness :
    SearchAPI.DecPath SearchAPI.pathDb ("a".toList) ("b".toList)
      (SearchAPI.findEntityPath SearchAPI.pathDb ("a".toList)
        ("b".toList) 3) ∧
    (SearchAPI.findEntityPath SearchAPI.pathDb ("a".toList)
      ("b".toList) 3).length ≤ 1 :=
  (c4_bfs_shortest_path SearchAPI.pathDb ("a".toList) ("b".toList) 3).1
    1 (by decide)
    (SearchAPI.UWalk.cons
      ⟨⟨"a".toList, "b".toList, "knows".toList⟩, by decide,
        Or.inl ⟨rfl, rfl⟩⟩
      (SearchAPI.UWalk.nil _))

end AiGraph
